import Mathlib

/-
  Verification of `server/templates.go` (template loading and view rendering
  for an authentication server).

  The Go source is shallowly embedded:
  * pure data (config, template names, scope table) becomes plain Lean data;
  * the filesystem and the template-parsing engine are external collaborators,
    so `loadTemplates` is parametrised by an environment recording the outcome
    of `ioutil.ReadDir` and of the parse calls;
  * an `http.ResponseWriter` is an abstract state `σ` together with the
    operations `Write` and `WriteHeader`; template execution
    (`text/template.Execute`) is abstracted by the sequence of `Write` calls it
    issues followed by its own success or failure (a template writes output
    incrementally and may fail at any point; `Execute` stops at the first
    write error and returns it);
  * `sort.Sort` (used via `byName` and `sort.Strings`) is embedded as the exact
    algorithm of the Go standard library before Go 1.19 (quicksort with
    median-of-three / Tukey-ninther pivoting, a Bentley-McIlroy duplicate
    guard, heapsort beyond the depth budget, and a shellsort gap-6 pass
    followed by insertion sort on ranges of at most 12 elements).  Go's string
    comparison is bytewise lexicographic on UTF-8, which coincides with Lean's
    `String` order on code points, since UTF-8 preserves code-point order.

  Go loops are written as structurally recursive functions over an explicit
  iteration budget whose value at each call site is the exact number of
  remaining iterations (or a safe upper bound for the two partition loops,
  whose exhaustion case is unreachable), so every definition evaluates by
  `decide` / `rfl`.
-/

/-  ---------------------------------------------------------------------
    Template names and configuration (templates.go lines 14-47)
    --------------------------------------------------------------------- -/

def tmplApproval : String := "approval.html"
def tmplLogin : String := "login.html"
def tmplPassword : String := "password.html"
def tmplOOB : String := "oob.html"

def coreOSLogoURL : String :=
  "https://coreos.com/assets/images/brand/coreos-wordmark-135x40px.png"

def requiredTmpls : List String :=
  [tmplApproval, tmplLogin, tmplPassword, tmplOOB]

structure TemplateConfig where
  Dir : String := ""
  LogoURL : String := ""
  Issuer : String := ""
deriving DecidableEq, Repr

/-  ---------------------------------------------------------------------
    Loader environment: directory listing and parse engine outcomes
    --------------------------------------------------------------------- -/

/- One entry returned by `ioutil.ReadDir`. -/
structure DirEntry where
  name : String
  isDir : Bool
deriving DecidableEq, Repr

/- Outcomes of the external collaborators used by `loadTemplates`:
   the result of listing `config.Dir`, the result of
   `template.ParseFiles` on a list of file names (on success, the list of
   template names defined by the parsed files), and the result of parsing one
   built-in source (`t.Parse(data)` for a `name, data` pair). -/
structure FSEnv where
  readDir : Except String (List DirEntry)
  parseFiles : List String → Except String (List String)
  parseSrc : String → String → Except String Unit

/- Modelled from the spec: the built-in template source set
   (`defaultTemplates`, defined in a sibling file of the repository that is
   not part of the given sources).  Per the spec it is a fixed mapping of
   template name to template source text that defines all four required
   names. -/
def defaultTemplates : List (String × String) :=
  [(tmplApproval, "builtin approval source"),
   (tmplLogin, "builtin login source"),
   (tmplPassword, "builtin password source"),
   (tmplOOB, "builtin oob source")]

/- The error cases of `loadTemplates`, one per `fmt.Errorf` site. -/
inductive LoadError where
  | readDir (msg : String)
  | noFiles (dir : String)
  | parseFiles (msg : String)
  | parseBuiltin (name msg : String)
  | missingTemplates (names : List String)
deriving DecidableEq, Repr

/- `filepath.Join(config.Dir, file.Name())`. -/
def joinPath (dir name : String) : String := dir ++ "/" ++ name

/- `tmpls.Lookup(name)`: the parsed collection is observable through the set
   of names it defines; `Lookup` returns the template registered under the
   name, or nil (`none`). -/
def lookupTmpl (defined : List String) (name : String) : Option String :=
  if defined.contains name then some name else none

/- The `templates` handle (templates.go lines 121-127).  A
   `*template.Template` reference is modelled by the `Lookup` result that
   produced it. -/
structure templates where
  globalData : TemplateConfig
  loginTmpl : Option String
  approvalTmpl : Option String
  passwordTmpl : Option String
  oobTmpl : Option String
deriving DecidableEq, Repr

/- The built-in loading loop (templates.go lines 73-86): parse each
   `name, data` pair of `defaultTemplates`, failing on the first parse error;
   on success the collection defines exactly the names of
   `defaultTemplates`. -/
def parseBuiltins : List (String × String) → FSEnv → Except LoadError Unit
  | [], _ => .ok ()
  | (name, data) :: rest, env =>
    match env.parseSrc name data with
    | .error e => .error (.parseBuiltin name e)
    | .ok () => parseBuiltins rest env

/- The names defined after a successful run of `loadTemplates`' source phase:
   for the directory path this is what the engine reports for the parsed
   files, for the built-in path it is the names of `defaultTemplates`. -/
def missingOf (defined : List String) : List String :=
  requiredTmpls.filter (fun name => !defined.contains name)

/- The source phase of `loadTemplates` (templates.go lines 50-87): obtain the
   named-template collection either from the configured directory or from the
   built-in sources, observable as the list of names it defines. -/
def sourceNames (env : FSEnv) (config : TemplateConfig) :
    Except LoadError (List String) :=
  if config.Dir ≠ "" then
    match env.readDir with
    | .error e => .error (.readDir e)
    | .ok files =>
      let filenames :=
        (files.filter (fun f => !f.isDir)).map
          (fun f => joinPath config.Dir f.name)
      if filenames = [] then
        .error (.noFiles config.Dir)
      else
        match env.parseFiles filenames with
        | .error e => .error (.parseFiles e)
        | .ok defined => .ok defined
  else
    match parseBuiltins defaultTemplates env with
    | .error e => .error e
    | .ok () => .ok (defaultTemplates.map Prod.fst)

/- `loadTemplates` (templates.go lines 49-113): source phase, completeness
   validation (lines 89-97), branding defaults (lines 99-104), handle
   construction (lines 106-112). -/
def loadTemplates (env : FSEnv) (config : TemplateConfig) :
    Except LoadError templates :=
  match sourceNames env config with
  | .error e => .error e
  | .ok defined =>
    let missingTmpls := missingOf defined
    if missingTmpls ≠ [] then
      .error (.missingTemplates missingTmpls)
    else
      let config :=
        { config with
          LogoURL := if config.LogoURL = "" then coreOSLogoURL else config.LogoURL
          Issuer := if config.Issuer = "" then "dex" else config.Issuer }
      .ok { globalData := config
            loginTmpl := lookupTmpl defined tmplLogin
            approvalTmpl := lookupTmpl defined tmplApproval
            passwordTmpl := lookupTmpl defined tmplPassword
            oobTmpl := lookupTmpl defined tmplOOB }

/-  ---------------------------------------------------------------------
    Scope descriptions and connector data (templates.go lines 115-139)
    --------------------------------------------------------------------- -/

def scopeDescriptions : String → Option String
  | "offline_access" => some "Have offline access"
  | "profile" => some "View basic profile information"
  | "email" => some "View your email"
  | _ => none

structure connectorInfo where
  ID : String
  Name : String
  URL : String
deriving DecidableEq, Repr

/-  ---------------------------------------------------------------------
    Go `sort.Sort` (standard library, Go 1.8 - 1.18) embedded faithfully.

    `templates.go` sorts with `sort.Sort(byName(connectors))` (line 142,
    `Less(i,j) = n[i].Name < n[j].Name`) and `sort.Strings(accesses)`
    (line 171, `Less(i,j) = a[i] < a[j]`).  Both comparators order elements
    by a `String` key, so the embedding is generic in a key function.

    The mutable slice is an explicit state `d : Nat → α`; `data.Swap(i, j)`
    becomes `swapGo`, `data.Less(i, j)` becomes `lessGo`.  Every Go loop is a
    structurally recursive function over an iteration budget; at each call
    site the budget is the exact number of iterations the Go loop performs
    (for loops advancing an index by one towards a fixed bound) or an upper
    bound whose exhaustion case the loop can never reach (the two partition
    loops, which shrink `c - b` resp. `b - a` by at least one per iteration).
    --------------------------------------------------------------------- -/

section GoSort

variable {α : Type} (key : α → String)

/- `data.Swap(i, j)`. -/
def swapGo (d : Nat → α) (i j : Nat) : Nat → α :=
  fun k => if k = i then d j else if k = j then d i else d k

/- Go's `<` on strings: bytewise lexicographic comparison of the UTF-8
   encodings, which orders strings exactly like lexicographic comparison of
   their code-point sequences (UTF-8 is order-preserving).  Written as a
   plain boolean recursion so that it evaluates inside the kernel; it is
   proved below to agree with Mathlib's linear order on `String`. -/
def charsLt : List Char → List Char → Bool
  | [], [] => false
  | [], _ :: _ => true
  | _ :: _, [] => false
  | c :: cs, c' :: cs' =>
    if c < c' then true else if c' < c then false else charsLt cs cs'

def goStrLt (s t : String) : Bool := charsLt s.data t.data

/- `data.Less(i, j)`. -/
def lessGo (d : Nat → α) (i j : Nat) : Bool :=
  goStrLt (key (d i)) (key (d j))

/- Inner loop of `insertionSort`:
   `for j := i; j > a && data.Less(j, j-1); j-- { data.Swap(j, j-1) }`.
   The budget is `j - a`, the exact distance to the loop bound, so the
   recursive call's budget `n` equals `(j - 1) - a`. -/
def insertionInner (a : Nat) : Nat → (Nat → α) → Nat → (Nat → α)
  | 0, d, _ => d
  | n + 1, d, j =>
    if a < j ∧ lessGo key d j (j - 1) then
      insertionInner a n (swapGo d j (j - 1)) (j - 1)
    else d

/- Outer loop of `insertionSort`: `for i := a+1; i < b; i++`.
   The budget is `b - i`. -/
def insertionLoop (a b : Nat) : Nat → (Nat → α) → Nat → (Nat → α)
  | 0, d, _ => d
  | n + 1, d, i =>
    insertionLoop a b n (insertionInner key a (i - a) d i) (i + 1)

/- `func insertionSort(data Interface, a, b int)`. -/
def insertionSortGo (d : Nat → α) (a b : Nat) : Nat → α :=
  insertionLoop key a b (b - (a + 1)) d (a + 1)

/- The shellsort gap-6 pass of `quickSort` on a range of at most 12 elements:
   `for i := a + 6; i < b; i++ { if data.Less(i, i-6) { data.Swap(i, i-6) } }`. -/
def shellLoop (b : Nat) : Nat → (Nat → α) → Nat → (Nat → α)
  | 0, d, _ => d
  | n + 1, d, i =>
    shellLoop b n (if lessGo key d i (i - 6) then swapGo d i (i - 6) else d) (i + 1)

def shellPass (d : Nat → α) (a b : Nat) : Nat → α :=
  shellLoop key b (b - (a + 6)) d (a + 6)

/- `func siftDown(data Interface, lo, hi, first int)`.  The loop advances
   `root` to a child index `≥ 2*root+1 > root`, so `hi - root` bounds the
   remaining iterations; the budget-zero case is unreachable because the loop
   guard `2*root+1 < hi` already fails when `root ≥ hi`. -/
def siftDownLoop (hi first : Nat) : Nat → (Nat → α) → Nat → (Nat → α)
  | 0, d, _ => d
  | n + 1, d, root =>
    let child := 2 * root + 1
    if child ≥ hi then d
    else
      let child :=
        if child + 1 < hi ∧ lessGo key d (first + child) (first + child + 1) then
          child + 1
        else child
      if ¬ lessGo key d (first + root) (first + child) then d
      else siftDownLoop hi first n (swapGo d (first + root) (first + child)) child

def siftDownGo (d : Nat → α) (lo hi first : Nat) : Nat → α :=
  siftDownLoop key hi first (hi - lo) d lo

/- Heap-building loop of `heapSort`:
   `for i := (hi-1)/2; i >= 0; i--`, with the budget counting the remaining
   iterations (the body at budget `n+1` runs with `i = n`). -/
def heapBuild (hi first : Nat) : Nat → (Nat → α) → (Nat → α)
  | 0, d => d
  | n + 1, d => heapBuild hi first n (siftDownGo key d n hi first)

/- Pop loop of `heapSort`:
   `for i := hi - 1; i >= 0; i-- { data.Swap(first, first+i); siftDown(data, lo, i, first) }`. -/
def heapPop (first : Nat) : Nat → (Nat → α) → (Nat → α)
  | 0, d => d
  | n + 1, d => heapPop first n (siftDownGo key (swapGo d first (first + n)) 0 n first)

/- `func heapSort(data Interface, a, b int)`.  In Go the build loop starts at
   `i = (hi-1)/2`, which is `0` also for `hi = 0` (Go integer division
   truncates toward zero), so it always performs `(hi-1)/2 + 1` iterations. -/
def heapSortGo (d : Nat → α) (a b : Nat) : Nat → α :=
  let first := a
  let hi := b - a
  heapPop key first hi (heapBuild key hi first ((hi - 1) / 2 + 1) d)

/- `func medianOfThree(data Interface, m1, m0, m2 int)`. -/
def medianOfThreeGo (d : Nat → α) (m1 m0 m2 : Nat) : Nat → α :=
  let d := if lessGo key d m1 m0 then swapGo d m1 m0 else d
  if lessGo key d m2 m1 then
    let d := swapGo d m2 m1
    if lessGo key d m1 m0 then swapGo d m1 m0 else d
  else d

/- `for ; a < c && data.Less(a, pivot); a++ {}` (budget `c - a`, exact). -/
def skipLtLoop (d : Nat → α) (pivot : Nat) : Nat → Nat → Nat
  | 0, a => a
  | n + 1, a => if lessGo key d a pivot then skipLtLoop d pivot n (a + 1) else a

/- `for ; b < c && !data.Less(pivot, b); b++ {}` (budget `c - b`, exact). -/
def bScanLoop (d : Nat → α) (pivot : Nat) : Nat → Nat → Nat
  | 0, b => b
  | n + 1, b => if ¬ lessGo key d pivot b then bScanLoop d pivot n (b + 1) else b

/- `for ; b < c && data.Less(pivot, c-1); c-- {}` (budget `c - b`, exact). -/
def cScanLoop (d : Nat → α) (pivot b : Nat) : Nat → Nat → Nat
  | 0, c => c
  | n + 1, c => if lessGo key d pivot (c - 1) then cScanLoop d pivot b n (c - 1) else c

/- The main partition loop of `doPivot`.  Each iteration either breaks or
   performs `b++`/`c--` after a swap, so `c - b + 1` iterations suffice and
   the budget-zero case is unreachable. -/
def partLoop (pivot : Nat) : Nat → (Nat → α) → Nat → Nat → (Nat → α) × Nat × Nat
  | 0, d, b, c => (d, b, c)
  | n + 1, d, b, c =>
    let b := bScanLoop key d pivot (c - b) b
    let c := cScanLoop key d pivot b (c - b) c
    if b ≥ c then (d, b, c)
    else partLoop pivot n (swapGo d b (c - 1)) (b + 1) (c - 1)

/- `for ; a < b && !data.Less(b-1, pivot); b-- {}` (budget `b - a`, exact). -/
def protBLoop (d : Nat → α) (pivot a : Nat) : Nat → Nat → Nat
  | 0, b => b
  | n + 1, b => if ¬ lessGo key d (b - 1) pivot then protBLoop d pivot a n (b - 1) else b

/- `for ; a < b && data.Less(a, pivot); a++ {}` (budget `b - a`, exact). -/
def protALoop (d : Nat → α) (pivot b : Nat) : Nat → Nat → Nat
  | 0, a => a
  | n + 1, a => if lessGo key d a pivot then protALoop d pivot b n (a + 1) else a

/- The duplicate-protection loop of `doPivot`; as for `partLoop`, `b - a + 1`
   iterations suffice. -/
def protLoop (pivot : Nat) : Nat → (Nat → α) → Nat → Nat → (Nat → α) × Nat × Nat
  | 0, d, a, b => (d, a, b)
  | n + 1, d, a, b =>
    let b := protBLoop key d pivot a (b - a) b
    let a := protALoop key d pivot b (b - a) a
    if a ≥ b then (d, a, b)
    else protLoop pivot n (swapGo d a (b - 1)) (a + 1) (b - 1)

/- The "Let's be a bit more conservative" block of `doPivot` (the three
   duplicate-detecting tests after the partition loop), named so the stages of
   `doPivot` compose.  `pivot` is `lo` throughout `doPivot`. -/
def doPivotDups (lo hi m : Nat) (d : Nat → α) (b c : Nat) :
    (Nat → α) × Nat × Nat × Bool :=
  let protect : Bool := decide (hi - c < 5)
  if !protect ∧ hi - c < (hi - lo) / 4 then
    let (d, c, dups) :=
      if ¬ lessGo key d lo (hi - 1) then (swapGo d c (hi - 1), c + 1, 1)
      else (d, c, 0)
    let (b, dups) :=
      if ¬ lessGo key d (b - 1) lo then (b - 1, dups + 1) else (b, dups)
    let (d, b, dups) :=
      if ¬ lessGo key d m lo then (swapGo d m (b - 1), b - 1, dups + 1)
      else (d, b, dups)
    (d, b, c, decide (dups > 1))
  else (d, b, c, protect)

/- The tail of `doPivot`: the optional `protect` loop and the final
   `data.Swap(pivot, b-1)`, returning the state and `(midlo, midhi)`. -/
def doPivotFinish (lo a : Nat) (x : (Nat → α) × Nat × Nat × Bool) :
    (Nat → α) × Nat × Nat :=
  let (d, b, c, protect) := x
  let (d, b) :=
    if protect then
      let (d, _, b) := protLoop key lo (b - a + 1) d a b
      (d, b)
    else (d, b)
  let d := swapGo d lo (b - 1)
  (d, b - 1, c)

/- The ninther step of `doPivot`: on ranges longer than 40, median the
   medians of three thirds (Tukey's ninther); otherwise leave the state
   alone. -/
def nintherGo (d : Nat → α) (lo hi m : Nat) : Nat → α :=
  if hi - lo > 40 then
    let s := (hi - lo) / 8
    let d := medianOfThreeGo key d lo (lo + s) (lo + 2 * s)
    let d := medianOfThreeGo key d m (m - s) (m + s)
    medianOfThreeGo key d (hi - 1) (hi - 1 - s) (hi - 1 - 2 * s)
  else d

/- `func doPivot(data Interface, lo, hi int) (midlo, midhi int)`.  Returns the
   final state together with `(midlo, midhi)`; `pivot` is `lo`. -/
def doPivotGo (d : Nat → α) (lo hi : Nat) : (Nat → α) × Nat × Nat :=
  let m := (lo + hi) / 2
  let d := medianOfThreeGo key (nintherGo key d lo hi m) lo m (hi - 1)
  let a := skipLtLoop key d lo ((hi - 1) - (lo + 1)) (lo + 1)
  let p := partLoop key lo ((hi - 1) - a + 1) d a (hi - 1)
  doPivotFinish key lo a (doPivotDups key lo hi m p.1 p.2.1 p.2.2)

/- `func quickSort(data Interface, a, b, maxDepth int)`.  The
   `for b-a > 12` loop with its tail recursion is written as structural
   recursion on the depth budget: the loop body decrements `maxDepth` before
   recursing, and the loop continuation runs with the decremented value, so
   both continuations recurse at `depth`.  The two base branches (`b-a ≤ 12`)
   are duplicated across the depth cases; they are the same code. -/
def quickSortGo : Nat → (Nat → α) → Nat → Nat → (Nat → α)
  | 0, d, a, b =>
    if b - a > 12 then heapSortGo key d a b
    else if b - a > 1 then insertionSortGo key (shellPass key d a b) a b
    else d
  | depth + 1, d, a, b =>
    if b - a > 12 then
      let p := doPivotGo key d a b
      if p.2.1 - a < b - p.2.2 then
        quickSortGo depth (quickSortGo depth p.1 a p.2.1) p.2.2 b
      else
        quickSortGo depth (quickSortGo depth p.1 p.2.2 b) a p.2.1
    else if b - a > 1 then
      insertionSortGo key (shellPass key d a b) a b
    else d

/- `func maxDepth(n int) int`: `2 * ceil(lg(n+1))`, written as
   `for i := n; i > 0; i >>= 1 { depth++ }`.  The iteration budget `n` is a
   safe bound: `i` at least halves each step, so the loop runs at most
   `n` times; the budget-zero fallback is unreachable. -/
def maxDepthAux : Nat → Nat → Nat
  | 0, _ => 0
  | fuel + 1, i => if i = 0 then 0 else 1 + maxDepthAux fuel (i / 2)

def maxDepthGo (n : Nat) : Nat := maxDepthAux n n * 2

/- `func Sort(data Interface)` acting on the explicit state. -/
def sortGo (d : Nat → α) (n : Nat) : Nat → α :=
  quickSortGo key (maxDepthGo n) d 0 n

/- `sort.Sort` on a list: load the list into the state, sort, read it back. -/
def goSortList [Inhabited α] (l : List α) : List α :=
  (List.range l.length).map (sortGo key (fun i => l.getD i default) l.length)

end GoSort

instance : Inhabited connectorInfo := ⟨⟨"", "", ""⟩⟩

/- `sort.Sort(byName(connectors))` (templates.go lines 135-139, 142):
   `byName` adapts the slice without copying, `Less` compares `Name`. -/
def goSortConnectors : List connectorInfo → List connectorInfo :=
  goSortList connectorInfo.Name

/- `sort.Strings(accesses)` (templates.go line 171). -/
def goSortStrings : List String → List String :=
  goSortList id

/-  ---------------------------------------------------------------------
    Response sink, write recorder and renderTemplate
    (templates.go lines 190-212)
    --------------------------------------------------------------------- -/

/- An `http.ResponseWriter`: an abstract sink state `σ` together with the two
   operations this file uses.  `write s p` models `Write(p)` and returns the
   new state, the byte count consumed, and the error; `writeHeader s code`
   models `WriteHeader(code)`.  Payloads are strings standing for their UTF-8
   bytes. -/
structure RespWriter (σ : Type) where
  write : σ → String → σ × Nat × Option String
  writeHeader : σ → Nat → σ

/- templates.go lines 191-194. -/
structure writeRecorder (σ : Type) where
  wrote : Bool
  w : σ

/- `func (w *writeRecorder) Write(p []byte) (n int, err error)`
   (templates.go lines 196-199): the flag is set unconditionally before the
   underlying write runs, whatever `p` is and whatever the underlying write
   returns. -/
def writeRecorder.Write (rw : RespWriter σ) (r : writeRecorder σ) (p : String) :
    writeRecorder σ × Nat × Option String :=
  let r := { r with wrote := true }
  let (s, n, err) := rw.write r.w p
  ({ r with w := s }, n, err)

/- The observable behaviour of one `tmpl.Execute(wr, data)` call: template
   execution issues a sequence of `Write` calls and then either returns nil
   or its own execution error.  A payload may be empty: `text/template`
   renders action values through `fmt.Fprint`, which always issues a `Write`,
   also when the formatted value is the empty string. -/
structure TmplBehavior where
  chunks : List String
  execError : Option String
deriving DecidableEq, Repr

/- `tmpl.Execute(wr, data)` against the recorder: perform the writes in
   order, aborting with the write error if one fails (as `text/template`
   does), otherwise finish with the template's own outcome. -/
def executeTmpl (rw : RespWriter σ) :
    List String → writeRecorder σ → Option String → writeRecorder σ × Option String
  | [], r, execErr => (r, execErr)
  | p :: rest, r, execErr =>
    match writeRecorder.Write rw r p with
    | (r, _, some e) => (r, some e)
    | (r, _, none) => executeTmpl rw rest r execErr

/- `http.Error(w, error, code)`: set the status code, then write the message
   followed by a newline (`fmt.Fprintln`). -/
def httpError (rw : RespWriter σ) (s : σ) (msg : String) (code : Nat) : σ :=
  (rw.write (rw.writeHeader s code) (msg ++ "\n")).1

/- `log.Printf("Error rendering template %s: %s", tmpl.Name(), err)`. -/
def renderLog (tmplName err : String) : String :=
  "Error rendering template " ++ tmplName ++ ": " ++ err

/- `func renderTemplate(w http.ResponseWriter, tmpl *template.Template, data interface{})`
   (templates.go lines 201-212).  Returns the final sink state and the log
   lines emitted. -/
def renderTemplate (rw : RespWriter σ) (beh : TmplBehavior) (tmplName : String)
    (s : σ) : σ × List String :=
  let wr : writeRecorder σ := ⟨false, s⟩
  match executeTmpl rw beh.chunks wr beh.execError with
  | (wr, some e) =>
    (if !wr.wrote then httpError rw wr.w "Internal server error" 500 else wr.w,
     [renderLog tmplName e])
  | (wr, none) => (wr.w, [])

/- A concrete healthy `http.ResponseWriter`: accumulates the body, records
   the status; as in `net/http`, the first `Write` without a prior
   `WriteHeader` commits status 200, and only the first `WriteHeader`
   takes effect.  Writes always succeed and consume the whole payload. -/
structure HttpSink where
  status : Option Nat
  body : String
deriving DecidableEq, Repr

def okWriter : RespWriter HttpSink where
  write s p :=
    ({ status := some ((s.status).getD 200), body := s.body ++ p },
     p.utf8ByteSize, none)
  writeHeader s code := { s with status := some ((s.status).getD code) }

/- A sink whose underlying `Write` fails having forwarded zero bytes
   (e.g. the client hung up); `WriteHeader` still records the status. -/
def failWriter : RespWriter HttpSink where
  write s _ := (s, 0, some "broken pipe")
  writeHeader s code := { s with status := some ((s.status).getD code) }

def emptySink : HttpSink := { status := none, body := "" }

/- Concatenation of the write payloads. -/
def strConcat : List String → String
  | [] => ""
  | p :: rest => p ++ strConcat rest

/-  ---------------------------------------------------------------------
    Notions used by the sorting proofs
    --------------------------------------------------------------------- -/

/- The contents of the state positions `[a, b)` as a list. -/
def rangeList {α : Type} (d : Nat → α) (a b : Nat) : List α :=
  (List.range' a (b - a)).map d

/- An operation taking state `d` to state `d'` is confined to `[a, b)` when
   it leaves every position outside `[a, b)` unchanged and permutes the
   contents of `[a, b)`. -/
def Confined {α : Type} (a b : Nat) (d d' : Nat → α) : Prop :=
  (∀ i, i < a ∨ b ≤ i → d' i = d i) ∧ (rangeList d' a b).Perm (rangeList d a b)

/- The positions `[a, b)` are in ascending key order. -/
def sortedRange {α : Type} (key : α → String) (d : Nat → α) (a b : Nat) : Prop :=
  ∀ i j, a ≤ i → i ≤ j → j < b → key (d i) ≤ key (d j)

/- Max-heap property of the region of length `hi` starting at `first`,
   restricted to parent offsets at least `r₀`: every parent-child edge with
   parent offset `≥ r₀` and child offset `< hi` respects the order. -/
def heapAbove {α : Type} (key : α → String) (d : Nat → α)
    (first hi r₀ : Nat) : Prop :=
  ∀ p c, r₀ ≤ p → (c = 2 * p + 1 ∨ c = 2 * p + 2) → c < hi →
    key (d (first + c)) ≤ key (d (first + p))

/- The region invariants maintained across the duplicate-protection steps of
   `doPivot` (pivot cell `lo`): `[lo+1, a)` strictly below the pivot,
   `[lo+1, bb)` at most the pivot, `[bb, cc)` equal to it, `[cc, hi-1)`
   strictly above it, and the last cell at least the pivot. -/
def DupState {α : Type} (key : α → String) (lo hi a bb cc : Nat)
    (d : Nat → α) : Prop :=
  (∀ k, lo + 1 ≤ k → k < a → key (d k) < key (d lo)) ∧
  (∀ k, lo + 1 ≤ k → k < bb → key (d k) ≤ key (d lo)) ∧
  (∀ k, bb ≤ k → k < cc → key (d k) = key (d lo)) ∧
  (∀ k, cc ≤ k → k < hi - 1 → key (d lo) < key (d k)) ∧
  key (d lo) ≤ key (d (hi - 1))

/-  ---------------------------------------------------------------------
    The four render operations (templates.go lines 141-188)
    --------------------------------------------------------------------- -/

/- The per-view data records; `globalConfig` is the embedded
   `TemplateConfig` field. -/
structure loginData where
  globalConfig : TemplateConfig
  Connectors : List connectorInfo
  AuthReqID : String
deriving DecidableEq, Repr

structure passwordData where
  globalConfig : TemplateConfig
  AuthReqID : String
  PostURL : String
  Username : String
  Invalid : Bool
deriving DecidableEq, Repr

structure approvalData where
  globalConfig : TemplateConfig
  User : String
  Client : String
  AuthReqID : String
  Scopes : List String
deriving DecidableEq, Repr

structure oobData where
  globalConfig : TemplateConfig
  Code : String
deriving DecidableEq, Repr

/- The outcome of a render operation: the data value bound into the
   template, the final sink state, and the log lines. -/
structure RenderResult (σ δ : Type) where
  data : δ
  sink : σ
  log : List String

/- `func (t *templates) login(w, connectors, authReqID)`.  `sort.Sort`
   receives the caller's slice through the non-copying adapter `byName` and
   permutes it in place; the explicit-state embedding therefore also returns
   `connectorsAfter`, the contents of the caller's slice when `login`
   returns.  Template execution is abstracted by `beh`; the name passed on
   is `tmpl.Name()`. -/
structure LoginResult (σ : Type) where
  data : loginData
  connectorsAfter : List connectorInfo
  sink : σ
  log : List String

def templates.login (t : templates) (rw : RespWriter σ) (beh : TmplBehavior)
    (connectors : List connectorInfo) (authReqID : String) (s : σ) :
    LoginResult σ :=
  let connectors := goSortConnectors connectors
  let data : loginData :=
    { globalConfig := t.globalData, Connectors := connectors
      AuthReqID := authReqID }
  let (s, log) := renderTemplate rw beh ((t.loginTmpl).getD "") s
  { data := data, connectorsAfter := connectors, sink := s, log := log }

/- `func (t *templates) password(w, authReqID, callback, lastUsername, lastWasInvalid)`. -/
def templates.password (t : templates) (rw : RespWriter σ) (beh : TmplBehavior)
    (authReqID callback lastUsername : String) (lastWasInvalid : Bool) (s : σ) :
    RenderResult σ passwordData :=
  let data : passwordData :=
    { globalConfig := t.globalData, AuthReqID := authReqID, PostURL := callback
      Username := lastUsername, Invalid := lastWasInvalid }
  let (s, log) := renderTemplate rw beh ((t.passwordTmpl).getD "") s
  { data := data, sink := s, log := log }

/- `func (t *templates) approval(w, authReqID, username, clientName, scopes)`:
   the `for` loop appends, in order, the description of each scope found in
   `scopeDescriptions` and drops the others, which is exactly `filterMap`;
   then `sort.Strings` sorts the local slice. -/
def templates.approval (t : templates) (rw : RespWriter σ) (beh : TmplBehavior)
    (authReqID username clientName : String) (scopes : List String) (s : σ) :
    RenderResult σ approvalData :=
  let accesses := goSortStrings (scopes.filterMap scopeDescriptions)
  let data : approvalData :=
    { globalConfig := t.globalData, User := username, Client := clientName
      AuthReqID := authReqID, Scopes := accesses }
  let (s, log) := renderTemplate rw beh ((t.approvalTmpl).getD "") s
  { data := data, sink := s, log := log }

/- `func (t *templates) oob(w, code)`. -/
def templates.oob (t : templates) (rw : RespWriter σ) (beh : TmplBehavior)
    (code : String) (s : σ) : RenderResult σ oobData :=
  let data : oobData := { globalConfig := t.globalData, Code := code }
  let (s, log) := renderTemplate rw beh ((t.oobTmpl).getD "") s
  { data := data, sink := s, log := log }

/-  ---------------------------------------------------------------------
    Loader claims
    --------------------------------------------------------------------- -/

/-- Claim C6: when `config.Dir` is non-empty, a failed directory listing
makes `loadTemplates` fail with the read-directory error, and a successful
listing containing no regular files (subdirectories are skipped) makes it
fail with the no-templates-found error; in both cases no handle is
produced. -/
theorem loadTemplates_dir_failures (env : FSEnv) (config : TemplateConfig)
    (hdir : config.Dir ≠ "") :
    (∀ e, env.readDir = .error e →
      loadTemplates env config = .error (.readDir e)) ∧
    (∀ files, env.readDir = .ok files → files.filter (fun f => !f.isDir) = [] →
      loadTemplates env config = .error (.noFiles config.Dir)) := by
  constructor
  · intro e h
    simp [loadTemplates, sourceNames, hdir, h]
  · intro files h hempty
    simp [loadTemplates, sourceNames, hdir, h, hempty]

/-- Witness for C6: a concrete unlistable directory and a concrete listing
with one subdirectory and zero regular files. -/
theorem loadTemplates_dir_failures_witness :
    loadTemplates ⟨.error "nope", fun _ => .ok [], fun _ _ => .ok ()⟩
        ⟨"d", "", ""⟩ = .error (.readDir "nope") ∧
    loadTemplates ⟨.ok [⟨"sub", true⟩], fun _ => .ok [], fun _ _ => .ok ()⟩
        ⟨"d", "", ""⟩ = .error (.noFiles "d") := by
  refine ⟨?_, ?_⟩
  · exact (loadTemplates_dir_failures _ _ (by decide)).1 "nope" rfl
  · exact (loadTemplates_dir_failures _ _ (by decide)).2 [⟨"sub", true⟩] rfl (by decide)

/-- Claim C2: whenever the source phase produces a template collection
(built-in or directory-sourced) that lacks one or more of the four required
names, `loadTemplates` fails with the missing-templates error, and the error
lists exactly the required names absent from the collection — every one of
them, not only the first. -/
theorem loadTemplates_missing_lists_all (env : FSEnv) (config : TemplateConfig)
    (defined : List String) (hsrc : sourceNames env config = .ok defined)
    (hmiss : missingOf defined ≠ []) :
    loadTemplates env config = .error (.missingTemplates (missingOf defined)) ∧
    (∀ name ∈ requiredTmpls, name ∉ defined → name ∈ missingOf defined) ∧
    (∀ name ∈ missingOf defined, name ∈ requiredTmpls ∧ name ∉ defined) := by
  refine ⟨?_, ?_, ?_⟩
  · simp [loadTemplates, hsrc, hmiss]
  · intro name hreq habs
    simp only [missingOf, List.mem_filter]
    simp [hreq, habs]
  · intro name hmem
    simp only [missingOf, List.mem_filter] at hmem
    refine ⟨hmem.1, by simpa using hmem.2⟩

/-- Witness for C2: a directory-sourced collection defining only
`login.html`; the error lists the three other required names. -/
theorem loadTemplates_missing_lists_all_witness :
    sourceNames ⟨.ok [⟨"login.html", false⟩], fun _ => .ok ["login.html"],
        fun _ _ => .ok ()⟩ ⟨"d", "", ""⟩ = .ok ["login.html"] ∧
    missingOf ["login.html"] = [tmplApproval, tmplPassword, tmplOOB] ∧
    loadTemplates ⟨.ok [⟨"login.html", false⟩], fun _ => .ok ["login.html"],
        fun _ _ => .ok ()⟩ ⟨"d", "", ""⟩ =
      .error (.missingTemplates [tmplApproval, tmplPassword, tmplOOB]) := by
  refine ⟨rfl, by decide, ?_⟩
  have h := (loadTemplates_missing_lists_all
    ⟨.ok [⟨"login.html", false⟩], fun _ => .ok ["login.html"], fun _ _ => .ok ()⟩
    ⟨"d", "", ""⟩ ["login.html"] rfl (by decide)).1
  rw [h]
  rfl

/-- Claim C5: whenever `loadTemplates` succeeds, an empty `config.LogoURL`
yields the built-in default logo URL in the handle's global data and an empty
`config.Issuer` yields issuer `"dex"`, while non-empty values are carried
over verbatim. -/
theorem loadTemplates_branding_defaults (env : FSEnv) (config : TemplateConfig)
    (t : templates) (h : loadTemplates env config = .ok t) :
    (config.LogoURL = "" → t.globalData.LogoURL = coreOSLogoURL) ∧
    (config.Issuer = "" → t.globalData.Issuer = "dex") ∧
    (config.LogoURL ≠ "" → t.globalData.LogoURL = config.LogoURL) ∧
    (config.Issuer ≠ "" → t.globalData.Issuer = config.Issuer) := by
  unfold loadTemplates at h
  rcases hsrc : sourceNames env config with e | defined <;> rw [hsrc] at h
  · cases h
  · by_cases hmiss : missingOf defined ≠ []
    · simp [hmiss] at h
    · simp only [hmiss, if_false] at h
      cases h
      refine ⟨?_, ?_, ?_, ?_⟩
      · intro h1; simp [h1]
      · intro h1; simp [h1]
      · intro h1; simp [h1]
      · intro h1; simp [h1]

/-- Witness for C5: the built-in set with an all-empty configuration yields
the default branding. -/
theorem loadTemplates_branding_defaults_witness :
    loadTemplates ⟨.ok [], fun _ => .ok [], fun _ _ => .ok ()⟩ ⟨"", "", ""⟩ =
      .ok ⟨⟨"", coreOSLogoURL, "dex"⟩, some tmplLogin, some tmplApproval,
        some tmplPassword, some tmplOOB⟩ ∧
    ((⟨"", "", ""⟩ : TemplateConfig).LogoURL = "" →
      (⟨⟨"", coreOSLogoURL, "dex"⟩, some tmplLogin, some tmplApproval,
        some tmplPassword, some tmplOOB⟩ : templates).globalData.LogoURL =
        coreOSLogoURL) ∧
    ((⟨"", "", ""⟩ : TemplateConfig).Issuer = "" →
      (⟨⟨"", coreOSLogoURL, "dex"⟩, some tmplLogin, some tmplApproval,
        some tmplPassword, some tmplOOB⟩ : templates).globalData.Issuer =
        "dex") := by
  refine ⟨rfl, ?_⟩
  have h := loadTemplates_branding_defaults
    ⟨.ok [], fun _ => .ok [], fun _ _ => .ok ()⟩ ⟨"", "", ""⟩
    ⟨⟨"", coreOSLogoURL, "dex"⟩, some tmplLogin, some tmplApproval,
      some tmplPassword, some tmplOOB⟩ rfl
  exact ⟨h.1, h.2.1⟩

/-- Claim C7: whenever the source phase succeeds (built-in or
directory-sourced) with a collection defining all four required names,
`loadTemplates` succeeds and the handle's four template references are the
respective lookups: all non-nil, and pairwise distinct by name. -/
theorem loadTemplates_success_handle (env : FSEnv) (config : TemplateConfig)
    (defined : List String) (hsrc : sourceNames env config = .ok defined)
    (hall : ∀ name ∈ requiredTmpls, name ∈ defined) :
    ∃ t, loadTemplates env config = .ok t ∧
      t.loginTmpl = some tmplLogin ∧ t.approvalTmpl = some tmplApproval ∧
      t.passwordTmpl = some tmplPassword ∧ t.oobTmpl = some tmplOOB ∧
      t.loginTmpl ≠ none ∧ t.approvalTmpl ≠ none ∧
      t.passwordTmpl ≠ none ∧ t.oobTmpl ≠ none ∧
      [t.loginTmpl, t.approvalTmpl, t.passwordTmpl, t.oobTmpl].Pairwise (· ≠ ·) := by
  have hmiss : ¬ missingOf defined ≠ [] := by
    simp only [missingOf, ne_eq, not_not, List.filter_eq_nil_iff]
    intro name hname
    simp [hall name hname]
  have hlookup : ∀ name ∈ requiredTmpls, lookupTmpl defined name = some name := by
    intro name hname
    simp [lookupTmpl, hall name hname]
  have hL := hlookup tmplLogin (by simp [requiredTmpls])
  have hA := hlookup tmplApproval (by simp [requiredTmpls])
  have hP := hlookup tmplPassword (by simp [requiredTmpls])
  have hO := hlookup tmplOOB (by simp [requiredTmpls])
  have hload : loadTemplates env config =
      .ok ⟨{ Dir := config.Dir
             LogoURL := if config.LogoURL = "" then coreOSLogoURL else config.LogoURL
             Issuer := if config.Issuer = "" then "dex" else config.Issuer },
        lookupTmpl defined tmplLogin, lookupTmpl defined tmplApproval,
        lookupTmpl defined tmplPassword, lookupTmpl defined tmplOOB⟩ := by
    unfold loadTemplates
    rw [hsrc]
    simp only [hmiss, if_false]
  refine ⟨_, hload, hL, hA, hP, hO, ?_, ?_, ?_, ?_, ?_⟩
  · show lookupTmpl defined tmplLogin ≠ none
    rw [hL]; simp
  · show lookupTmpl defined tmplApproval ≠ none
    rw [hA]; simp
  · show lookupTmpl defined tmplPassword ≠ none
    rw [hP]; simp
  · show lookupTmpl defined tmplOOB ≠ none
    rw [hO]; simp
  · show List.Pairwise (· ≠ ·) [lookupTmpl defined tmplLogin,
      lookupTmpl defined tmplApproval, lookupTmpl defined tmplPassword,
      lookupTmpl defined tmplOOB]
    rw [hL, hA, hP, hO]
    decide

/-- Witness for C7: the built-in source set, which defines the four required
names, loads into a handle with four distinct non-nil references. -/
theorem loadTemplates_success_handle_witness :
    sourceNames ⟨.ok [], fun _ => .ok [], fun _ _ => .ok ()⟩ ⟨"", "", ""⟩ =
      .ok [tmplApproval, tmplLogin, tmplPassword, tmplOOB] ∧
    (∃ t, loadTemplates ⟨.ok [], fun _ => .ok [], fun _ _ => .ok ()⟩
        ⟨"", "", ""⟩ = .ok t ∧
      t.loginTmpl = some tmplLogin ∧ t.approvalTmpl = some tmplApproval ∧
      t.passwordTmpl = some tmplPassword ∧ t.oobTmpl = some tmplOOB ∧
      t.loginTmpl ≠ none ∧ t.approvalTmpl ≠ none ∧
      t.passwordTmpl ≠ none ∧ t.oobTmpl ≠ none ∧
      [t.loginTmpl, t.approvalTmpl, t.passwordTmpl, t.oobTmpl].Pairwise (· ≠ ·)) := by
  refine ⟨rfl, ?_⟩
  exact loadTemplates_success_handle
    ⟨.ok [], fun _ => .ok [], fun _ _ => .ok ()⟩ ⟨"", "", ""⟩
    [tmplApproval, tmplLogin, tmplPassword, tmplOOB] rfl (by decide)

/-  ---------------------------------------------------------------------
    Renderer claims
    --------------------------------------------------------------------- -/

/- Against the healthy sink no write fails, so `Execute` performs every
   write: the recorder's flag records whether any `Write` call happened
   (also for empty payloads), the body receives the concatenation of all
   payloads, and the first write commits status 200 if none was set. -/
theorem executeTmpl_okWriter (chunks : List String) (w0 : Bool) (s : HttpSink)
    (execErr : Option String) :
    executeTmpl okWriter chunks ⟨w0, s⟩ execErr =
      (⟨w0 || !chunks.isEmpty,
        { status := if chunks.isEmpty then s.status else some ((s.status).getD 200)
          body := s.body ++ strConcat chunks }⟩, execErr) := by
  induction chunks generalizing w0 s with
  | nil =>
    show ((⟨w0, s⟩ : writeRecorder HttpSink), execErr) = _
    rw [show strConcat [] = "" from rfl, String.append_empty]
    simp
  | cons p rest ih =>
    have hstep : executeTmpl okWriter (p :: rest) ⟨w0, s⟩ execErr =
        executeTmpl okWriter rest
          ⟨true, { status := some ((s.status).getD 200), body := s.body ++ p }⟩
          execErr := rfl
    rw [hstep, ih]
    simp [strConcat, String.append_assoc]

/-- Claim C10 (the flag semantics is as the code has it): the recorder's
`wrote` flag becomes true whenever its `Write` method is invoked — also for a
zero-length buffer, and also when the underlying sink's write returns an
error having forwarded zero bytes, since the flag is set before the
underlying write runs.  Consequently the error-response suppression keys off
"`Write` was called at least once", not "at least one byte reached the
sink": against a sink whose write fails with zero bytes forwarded, a
template that attempts one write fails with the sink still byte-for-byte
empty, and yet no generic error response is emitted. -/
theorem writeRecorder_wrote_on_any_write (σ : Type) :
    (∀ (rw : RespWriter σ) (r : writeRecorder σ) (p : String),
      (writeRecorder.Write rw r p).1.wrote = true) ∧
    renderTemplate failWriter ⟨["hello"], none⟩ "login.html" emptySink =
      (emptySink, [renderLog "login.html" "broken pipe"]) := by
  constructor
  · intro rw r p
    show (let r' := { r with wrote := true }
          let (s, n, err) := rw.write r'.w p
          (({ r' with w := s }, n, err) :
            writeRecorder σ × Nat × Option String)).1.wrote = true
    rcases rw.write { r with wrote := true }.w p with ⟨s, n, err⟩
    rfl
  · rfl

/-- Counterexample to C1 as stated: a template execution that fails after
writing zero bytes to the sink (its single `Write` call carries an empty
payload, as `text/template` issues for an action rendering the empty string)
after which the sink holds no generic error response — its body is
byte-for-byte empty and its status is 200, not 500 — because the code keys
the error response off "no `Write` call", not "zero bytes written". -/
theorem renderTemplate_zero_bytes_without_error_response :
    (⟨[""], some "boom"⟩ : TmplBehavior).execError = some "boom" ∧
    renderTemplate okWriter ⟨[""], some "boom"⟩ "login.html" emptySink =
      (⟨some 200, ""⟩, [renderLog "login.html" "boom"]) ∧
    (renderTemplate okWriter ⟨[""], some "boom"⟩ "login.html" emptySink).1.body
      = "" ∧
    (renderTemplate okWriter ⟨[""], some "boom"⟩ "login.html" emptySink).1.status
      ≠ some 500 ∧
    (renderTemplate okWriter ⟨[""], some "boom"⟩ "login.html" emptySink).1
      ≠ httpError okWriter emptySink "Internal server error" 500 := by
  refine ⟨rfl, rfl, rfl, by decide, by decide⟩

/-- Claim C1 as amended: against the healthy sink, if template execution
fails without having made any `Write` call (rather than: having written zero
bytes), the sink receives exactly one generic internal-server-error response
— status 500 and the fixed plain-text body — and nothing else; if it fails
after at least one `Write` call (in particular whenever at least one byte
was forwarded), nothing further is written to the sink beyond the partial
output already committed. -/
theorem renderTemplate_failure_containment (beh : TmplBehavior) (nm : String)
    (s : HttpSink) (e : String) (he : beh.execError = some e) :
    (beh.chunks = [] →
      renderTemplate okWriter beh nm s =
        ({ status := some ((s.status).getD 500)
           body := s.body ++ "Internal server error\n" }, [renderLog nm e])) ∧
    (beh.chunks ≠ [] →
      renderTemplate okWriter beh nm s =
        ({ status := some ((s.status).getD 200)
           body := s.body ++ strConcat beh.chunks }, [renderLog nm e])) := by
  constructor
  · intro hc
    simp only [renderTemplate, executeTmpl_okWriter, hc, he]
    simp [httpError, okWriter, strConcat, String.append_empty]
  · intro hc
    have hc' : beh.chunks.isEmpty = false := by
      simpa [List.isEmpty_iff] using hc
    simp only [renderTemplate, executeTmpl_okWriter, he, hc']
    simp

/-- Witness for C1 (amended): a failing execution with no `Write` call turns
the empty sink into exactly the generic 500 response; a failing execution
after one two-byte write leaves exactly that partial output. -/
theorem renderTemplate_failure_containment_witness :
    (⟨[], some "boom"⟩ : TmplBehavior).execError = some "boom" ∧
    renderTemplate okWriter ⟨[], some "boom"⟩ "login.html" emptySink =
      (⟨some 500, "Internal server error\n"⟩, [renderLog "login.html" "boom"]) ∧
    (⟨["<h", ""], some "boom"⟩ : TmplBehavior).execError = some "boom" ∧
    renderTemplate okWriter ⟨["<h", ""], some "boom"⟩ "login.html" emptySink =
      (⟨some 200, "<h"⟩, [renderLog "login.html" "boom"]) := by
  refine ⟨rfl, ?_, rfl, ?_⟩
  · have h := (renderTemplate_failure_containment ⟨[], some "boom"⟩
      "login.html" emptySink "boom" rfl).1 rfl
    rw [h]
    rfl
  · have h := (renderTemplate_failure_containment ⟨["<h", ""], some "boom"⟩
      "login.html" emptySink "boom" rfl).2 (by decide)
    rw [h]
    rfl

/-- Claim C8: every render operation returns normally to its caller whatever
template execution does: each of the four operations is a total function
whose result is exactly the bound data together with `renderTemplate`'s
final sink state and log lines — no error value is surfaced alongside them —
and `renderTemplate` itself returns on every execution path, a failure being
observable only through the sink and a single log line. -/
theorem render_ops_return_normally (σ : Type) (rw : RespWriter σ)
    (t : templates) (beh : TmplBehavior) (cs : List connectorInfo)
    (scopes : List String) (arid cb lu un cn code nm : String) (inv : Bool)
    (s : σ) :
    t.login rw beh cs arid s =
      ⟨⟨t.globalData, goSortConnectors cs, arid⟩, goSortConnectors cs,
        (renderTemplate rw beh ((t.loginTmpl).getD "") s).1,
        (renderTemplate rw beh ((t.loginTmpl).getD "") s).2⟩ ∧
    t.password rw beh arid cb lu inv s =
      ⟨⟨t.globalData, arid, cb, lu, inv⟩,
        (renderTemplate rw beh ((t.passwordTmpl).getD "") s).1,
        (renderTemplate rw beh ((t.passwordTmpl).getD "") s).2⟩ ∧
    t.approval rw beh arid un cn scopes s =
      ⟨⟨t.globalData, un, cn, arid, goSortStrings (scopes.filterMap scopeDescriptions)⟩,
        (renderTemplate rw beh ((t.approvalTmpl).getD "") s).1,
        (renderTemplate rw beh ((t.approvalTmpl).getD "") s).2⟩ ∧
    t.oob rw beh code s =
      ⟨⟨t.globalData, code⟩,
        (renderTemplate rw beh ((t.oobTmpl).getD "") s).1,
        (renderTemplate rw beh ((t.oobTmpl).getD "") s).2⟩ ∧
    ((renderTemplate rw beh nm s).2 = [] ∨
      ∃ e, (renderTemplate rw beh nm s).2 = [renderLog nm e]) := by
  refine ⟨?_, ?_, ?_, ?_, ?_⟩
  · rcases hr : renderTemplate rw beh ((t.loginTmpl).getD "") s with ⟨s', log'⟩
    simp [templates.login, hr]
  · rcases hr : renderTemplate rw beh ((t.passwordTmpl).getD "") s with ⟨s', log'⟩
    simp [templates.password, hr]
  · rcases hr : renderTemplate rw beh ((t.approvalTmpl).getD "") s with ⟨s', log'⟩
    simp [templates.approval, hr]
  · rcases hr : renderTemplate rw beh ((t.oobTmpl).getD "") s with ⟨s', log'⟩
    simp [templates.oob, hr]
  · rcases h : executeTmpl rw beh.chunks ⟨false, s⟩ beh.execError with ⟨wr, err⟩
    cases err with
    | none =>
      left
      simp [renderTemplate, h]
    | some e =>
      right
      exact ⟨e, by simp [renderTemplate, h]⟩

/-  ---------------------------------------------------------------------
    Connector sorting claims
    --------------------------------------------------------------------- -/

/-- Claim C9: `login` sorts the caller-supplied connectors slice in place:
`sort.Sort(byName(connectors))` receives the caller's slice through the
non-copying `byName` adapter and permutes its backing array, so when `login`
returns, the caller's own slice holds the reordered contents (modelled by
the `connectorsAfter` component of the explicit-state embedding), and this
is the very list bound into the template data, not a sorted copy of an
untouched argument.  At the concrete input `[Zeta, Alpha]` the caller's
slice contents after the call differ from the contents before it. -/
theorem login_sorts_caller_slice_in_place (σ : Type) (rw : RespWriter σ)
    (t : templates) (beh : TmplBehavior) (cs : List connectorInfo)
    (arid : String) (s : σ) :
    (t.login rw beh cs arid s).connectorsAfter = goSortConnectors cs ∧
    (t.login rw beh cs arid s).data.Connectors =
      (t.login rw beh cs arid s).connectorsAfter ∧
    goSortConnectors [⟨"1", "Zeta", ""⟩, ⟨"2", "Alpha", ""⟩] =
      [⟨"2", "Alpha", ""⟩, ⟨"1", "Zeta", ""⟩] ∧
    goSortConnectors [⟨"1", "Zeta", ""⟩, ⟨"2", "Alpha", ""⟩] ≠
      [⟨"1", "Zeta", ""⟩, ⟨"2", "Alpha", ""⟩] := by
  refine ⟨?_, ?_, by decide, by decide⟩
  · rcases hr : renderTemplate rw beh ((t.loginTmpl).getD "") s with ⟨s', log'⟩
    simp [templates.login, hr]
  · rcases hr : renderTemplate rw beh ((t.loginTmpl).getD "") s with ⟨s', log'⟩
    simp [templates.login, hr]

/-- Counterexample to C3 as stated: `sort.Sort` is not a stable sort.  On a
seven-connector list, the gap-6 shellsort pass of the base case compares
positions 6 and 0 and swaps them, jumping position 0 over the equal-name
connector at position 1; the subsequent insertion sort preserves that
inversion.  The connectors named `"B"`, supplied in insertion order
`first, second`, come out of `login`'s bound data in order
`second, first`. -/
theorem login_equal_names_not_insertion_order :
    ((templates.login ⟨⟨"", "", ""⟩, some tmplLogin, some tmplApproval,
          some tmplPassword, some tmplOOB⟩ okWriter ⟨[], none⟩
        [⟨"first", "B", ""⟩, ⟨"second", "B", ""⟩, ⟨"c1", "C", ""⟩,
         ⟨"c2", "C", ""⟩, ⟨"c3", "C", ""⟩, ⟨"c4", "C", ""⟩, ⟨"a", "A", ""⟩]
        "req" emptySink).data.Connectors =
      [⟨"a", "A", ""⟩, ⟨"second", "B", ""⟩, ⟨"first", "B", ""⟩,
       ⟨"c1", "C", ""⟩, ⟨"c2", "C", ""⟩, ⟨"c3", "C", ""⟩, ⟨"c4", "C", ""⟩]) ∧
    List.map connectorInfo.ID
      (List.filter (fun c => c.Name = "B")
        (templates.login ⟨⟨"", "", ""⟩, some tmplLogin, some tmplApproval,
            some tmplPassword, some tmplOOB⟩ okWriter ⟨[], none⟩
          [⟨"first", "B", ""⟩, ⟨"second", "B", ""⟩, ⟨"c1", "C", ""⟩,
           ⟨"c2", "C", ""⟩, ⟨"c3", "C", ""⟩, ⟨"c4", "C", ""⟩, ⟨"a", "A", ""⟩]
          "req" emptySink).data.Connectors) = ["second", "first"] ∧
    List.map connectorInfo.ID
      (List.filter (fun c => c.Name = "B")
        [⟨"first", "B", ""⟩, ⟨"second", "B", ""⟩, ⟨"c1", "C", ""⟩,
         ⟨"c2", "C", ""⟩, ⟨"c3", "C", ""⟩, ⟨"c4", "C", ""⟩,
         ⟨"a", "A", ""⟩]) = ["first", "second"] ∧
    (["second", "first"] : List String) ≠ ["first", "second"] := by
  refine ⟨by decide, by decide, by decide, by decide⟩

/-  ---------------------------------------------------------------------
    The boolean comparison agrees with the linear order on `String`
    --------------------------------------------------------------------- -/

theorem charsLt_iff_lex (l₁ l₂ : List Char) :
    charsLt l₁ l₂ = true ↔ List.Lex (· < ·) l₁ l₂ := by
  induction l₁ generalizing l₂ with
  | nil =>
    cases l₂ with
    | nil =>
      simp only [charsLt]
      constructor
      · intro h; cases h
      · intro h; cases h
    | cons b bs =>
      simp only [charsLt]
      exact ⟨fun _ => List.Lex.nil, fun _ => trivial⟩
  | cons a as ih =>
    cases l₂ with
    | nil =>
      simp only [charsLt]
      constructor
      · intro h; cases h
      · intro h; cases h
    | cons b bs =>
      simp only [charsLt]
      by_cases hab : a < b
      · simp only [hab, if_true]
        exact ⟨fun _ => List.Lex.rel hab, fun _ => trivial⟩
      · by_cases hba : b < a
        · simp only [hab, hba, if_false, if_true]
          constructor
          · intro h; cases h
          · intro h
            cases h with
            | rel h' => exact absurd h' hab
            | cons h' => exact absurd hba (lt_irrefl a)
        · have heq : a = b := le_antisymm (le_of_not_lt hba) (le_of_not_lt hab)
          subst heq
          simp only [hab, hba, if_false]
          rw [ih bs]
          constructor
          · intro h; exact List.Lex.cons h
          · intro h
            cases h with
            | rel h' => exact absurd h' hab
            | cons h' => exact h'

theorem goStrLt_iff_lt (s t : String) : goStrLt s t = true ↔ s < t := by
  rw [String.lt_iff_toList_lt]
  exact charsLt_iff_lex s.data t.data

theorem goStrLt_eq_false_iff_le (s t : String) : goStrLt s t = false ↔ t ≤ s := by
  rw [← not_lt, ← goStrLt_iff_lt]
  simp

/- `data.Less(i, j)` decides strict order of the keys at `i` and `j`. -/
theorem lessGo_iff {α : Type} (key : α → String) (d : Nat → α) (i j : Nat) :
    lessGo key d i j = true ↔ key (d i) < key (d j) := by
  exact goStrLt_iff_lt _ _

theorem lessGo_eq_false_iff {α : Type} (key : α → String) (d : Nat → α)
    (i j : Nat) : lessGo key d i j = false ↔ key (d j) ≤ key (d i) := by
  exact goStrLt_eq_false_iff_le _ _

/-  ---------------------------------------------------------------------
    Range, confinement and sortedness toolbox
    --------------------------------------------------------------------- -/

theorem rangeList_eq_nil {α : Type} (d : Nat → α) (a b : Nat) (h : b ≤ a) :
    rangeList d a b = [] := by
  simp [rangeList, Nat.sub_eq_zero_of_le h]

theorem mem_rangeList {α : Type} {d : Nat → α} {a b : Nat} {x : α} :
    x ∈ rangeList d a b ↔ ∃ i, a ≤ i ∧ i < b ∧ d i = x := by
  simp only [rangeList, List.mem_map, List.mem_range'_1]
  constructor
  · rintro ⟨i, ⟨h1, h2⟩, h3⟩
    exact ⟨i, h1, by omega, h3⟩
  · rintro ⟨i, h1, h2, h3⟩
    exact ⟨i, ⟨h1, by omega⟩, h3⟩

theorem rangeList_congr {α : Type} {d d' : Nat → α} {a b : Nat}
    (h : ∀ i, a ≤ i → i < b → d i = d' i) :
    rangeList d a b = rangeList d' a b := by
  apply List.map_congr_left
  intro i hi
  rw [List.mem_range'_1] at hi
  exact h i hi.1 (by omega)

theorem rangeList_append {α : Type} (d : Nat → α) (a m b : Nat)
    (h1 : a ≤ m) (h2 : m ≤ b) :
    rangeList d a b = rangeList d a m ++ rangeList d m b := by
  unfold rangeList
  rw [← List.map_append]
  congr 1
  have := List.range'_append_1 a (m - a) (b - m)
  rw [show a + (m - a) = m by omega] at this
  rw [show b - m + (m - a) = b - a by omega] at this
  exact this.symm

theorem rangeList_single {α : Type} (d : Nat → α) (a : Nat) :
    rangeList d a (a + 1) = [d a] := by
  simp [rangeList]

theorem swapGo_left {α : Type} (d : Nat → α) (i j : Nat) :
    swapGo d i j i = d j := by
  simp [swapGo]

theorem swapGo_right {α : Type} (d : Nat → α) (i j : Nat) :
    swapGo d i j j = d i := by
  unfold swapGo
  by_cases h : j = i <;> simp [h]

theorem swapGo_other {α : Type} (d : Nat → α) {i j k : Nat}
    (h1 : k ≠ i) (h2 : k ≠ j) : swapGo d i j k = d k := by
  simp [swapGo, h1, h2]

theorem swapGo_self {α : Type} (d : Nat → α) (i : Nat) : swapGo d i i = d := by
  funext k
  unfold swapGo
  by_cases h : k = i <;> simp [h]

theorem swapGo_comm {α : Type} (d : Nat → α) (i j : Nat) :
    swapGo d i j = swapGo d j i := by
  rcases eq_or_ne i j with h | h
  · rw [h]
  · funext k
    unfold swapGo
    by_cases h1 : k = i
    · subst h1
      simp [h]
    · by_cases h2 : k = j
      · subst h2
        simp [h1]
      · simp [h1, h2]

theorem perm_swap_middle {α : Type} (x y : α) (l₁ l₂ l₃ : List α) :
    (l₁ ++ y :: (l₂ ++ x :: l₃)).Perm (l₁ ++ x :: (l₂ ++ y :: l₃)) := by
  apply List.Perm.append_left l₁
  have h1 : (l₂ ++ x :: l₃).Perm (x :: (l₂ ++ l₃)) := List.perm_middle
  have h2 : (l₂ ++ y :: l₃).Perm (y :: (l₂ ++ l₃)) := List.perm_middle
  exact ((h1.cons y).trans (List.Perm.swap x y _)).trans (h2.cons x).symm

theorem rangeList_swap_perm_lt {α : Type} (d : Nat → α) {a b i j : Nat}
    (hij : i < j) (hi : a ≤ i) (hjb : j < b) :
    (rangeList (swapGo d i j) a b).Perm (rangeList d a b) := by
  have e1 : rangeList (swapGo d i j) a b =
      rangeList (swapGo d i j) a i ++ rangeList (swapGo d i j) i (i + 1) ++
      rangeList (swapGo d i j) (i + 1) j ++ rangeList (swapGo d i j) j (j + 1) ++
      rangeList (swapGo d i j) (j + 1) b := by
    rw [← rangeList_append _ a i (i+1) hi (by omega),
      ← rangeList_append _ a (i+1) j (by omega) (by omega),
      ← rangeList_append _ a j (j+1) (by omega) (by omega),
      ← rangeList_append _ a (j+1) b (by omega) (by omega)]
  have e2 : rangeList d a b =
      rangeList d a i ++ rangeList d i (i + 1) ++ rangeList d (i + 1) j ++
      rangeList d j (j + 1) ++ rangeList d (j + 1) b := by
    rw [← rangeList_append _ a i (i+1) hi (by omega),
      ← rangeList_append _ a (i+1) j (by omega) (by omega),
      ← rangeList_append _ a j (j+1) (by omega) (by omega),
      ← rangeList_append _ a (j+1) b (by omega) (by omega)]
  rw [e1, e2, rangeList_single, rangeList_single, rangeList_single,
    rangeList_single, swapGo_left, swapGo_right,
    @rangeList_congr α (swapGo d i j) d a i
      (fun k hk1 hk2 => swapGo_other d (by omega) (by omega)),
    @rangeList_congr α (swapGo d i j) d (i + 1) j
      (fun k hk1 hk2 => swapGo_other d (by omega) (by omega)),
    @rangeList_congr α (swapGo d i j) d (j + 1) b
      (fun k hk1 hk2 => swapGo_other d (by omega) (by omega))]
  simp only [List.append_assoc, List.cons_append, List.nil_append]
  exact perm_swap_middle (d i) (d j) _ _ _

theorem Confined.rfl {α : Type} {a b : Nat} {d : Nat → α} : Confined a b d d :=
  ⟨fun _ _ => Eq.refl _, List.Perm.refl _⟩

theorem Confined.trans {α : Type} {a b : Nat} {d d' d'' : Nat → α}
    (h1 : Confined a b d d') (h2 : Confined a b d' d'') :
    Confined a b d d'' :=
  ⟨fun i h => (h2.1 i h).trans (h1.1 i h), h2.2.trans h1.2⟩

theorem Confined.swap {α : Type} {a b i j : Nat} (d : Nat → α)
    (hi : a ≤ i) (hib : i < b) (hj : a ≤ j) (hjb : j < b) :
    Confined a b d (swapGo d i j) := by
  refine ⟨fun k hk => swapGo_other d (by omega) (by omega), ?_⟩
  rcases lt_trichotomy i j with h | h | h
  · exact rangeList_swap_perm_lt d h hi hjb
  · subst h
    rw [swapGo_self]
  · rw [swapGo_comm]
    exact rangeList_swap_perm_lt d h hj hib

theorem Confined.mono {α : Type} {a b a' b' : Nat} {d d' : Nat → α}
    (ha : a ≤ a') (hb : b' ≤ b) (h : Confined a' b' d d') :
    Confined a b d d' := by
  refine ⟨fun i hi => h.1 i (by omega), ?_⟩
  by_cases hab : a' ≤ b'
  · rw [rangeList_append d' a a' b ha (by omega),
      rangeList_append d' a' b' b hab hb,
      rangeList_append d a a' b ha (by omega),
      rangeList_append d a' b' b hab hb,
      @rangeList_congr α d' d a a' (fun i h1 h2 => h.1 i (by omega)),
      @rangeList_congr α d' d b' b (fun i h1 h2 => h.1 i (by omega))]
    exact List.Perm.append_left _ (h.2.append_right _)
  · have : ∀ i, d' i = d i := fun i => h.1 i (by omega)
    rw [rangeList_congr (fun i _ _ => (this i).symm)]

theorem Confined.outside {α : Type} {a b : Nat} {d d' : Nat → α}
    (h : Confined a b d d') {i : Nat} (hi : i < a ∨ b ≤ i) : d' i = d i :=
  h.1 i hi

/- Pointwise facts about the contents of a confined range carry over: each
   new cell holds some old cell's value from the same range. -/
theorem Confined.all_range {α : Type} {a b : Nat} {d d' : Nat → α}
    (h : Confined a b d d') (P : α → Prop)
    (hp : ∀ i, a ≤ i → i < b → P (d i)) :
    ∀ i, a ≤ i → i < b → P (d' i) := by
  intro i h1 h2
  have hmem : d' i ∈ rangeList d' a b := mem_rangeList.mpr ⟨i, h1, h2, Eq.refl _⟩
  have hmem' : d' i ∈ rangeList d a b := h.2.mem_iff.1 hmem
  obtain ⟨j, hj1, hj2, hji⟩ := mem_rangeList.1 hmem'
  rw [← hji]
  exact hp j hj1 hj2

theorem sortedRange_sub {α : Type} {key : α → String} {d : Nat → α}
    {a b a' b' : Nat} (h : sortedRange key d a b) (ha : a ≤ a') (hb : b' ≤ b) :
    sortedRange key d a' b' :=
  fun i j h1 h2 h3 => h i j (by omega) h2 (by omega)

theorem sortedRange_small {α : Type} (key : α → String) (d : Nat → α)
    {a b : Nat} (h : b ≤ a + 1) : sortedRange key d a b := by
  intro i j h1 h2 h3
  have : i = j := by omega
  subst this
  exact le_refl _

theorem sortedRange_congr {α : Type} {key : α → String} {d d' : Nat → α}
    {a b : Nat} (he : ∀ i, a ≤ i → i < b → d i = d' i)
    (h : sortedRange key d a b) : sortedRange key d' a b := by
  intro i j h1 h2 h3
  rw [← he i h1 (by omega), ← he j (by omega) h3]
  exact h i j h1 h2 h3

/-  ---------------------------------------------------------------------
    Insertion sort and the shellsort pass
    --------------------------------------------------------------------- -/

theorem insertionInner_confined {α : Type} (key : α → String) (a b : Nat) :
    ∀ (n : Nat) (d : Nat → α) (j : Nat), a ≤ j → j < b →
    Confined a b d (insertionInner key a n d j) := by
  intro n
  induction n with
  | zero => intro d j _ _; exact Confined.rfl
  | succ n ih =>
    intro d j hja hjb
    have hstep : insertionInner key a (n + 1) d j =
        if a < j ∧ lessGo key d j (j - 1) then
          insertionInner key a n (swapGo d j (j - 1)) (j - 1)
        else d := rfl
    rw [hstep]
    split_ifs with h
    · obtain ⟨h1, _⟩ := h
      exact Confined.trans
        (Confined.swap d hja hjb (by omega) (by omega))
        (ih _ (j - 1) (by omega) (by omega))
    · exact Confined.rfl

theorem insertionInner_sorts {α : Type} (key : α → String) (a i : Nat) :
    ∀ (n : Nat) (d : Nat → α) (j : Nat), n = j - a → a ≤ j → j ≤ i →
    sortedRange key d a j →
    sortedRange key d j (i + 1) →
    (∀ p q, a ≤ p → p < j → j < q → q ≤ i → key (d p) ≤ key (d q)) →
    sortedRange key (insertionInner key a n d j) a (i + 1) := by
  intro n
  induction n with
  | zero =>
    intro d j hn hja hji hpre hsuf _
    have hj : j = a := by omega
    subst hj
    exact hsuf
  | succ n ih =>
    intro d j hn hja hji hpre hsuf hbr
    have hstep : insertionInner key a (n + 1) d j =
        if a < j ∧ lessGo key d j (j - 1) then
          insertionInner key a n (swapGo d j (j - 1)) (j - 1)
        else d := rfl
    rw [hstep]
    split_ifs with h
    · obtain ⟨haj, hless⟩ := h
      have hlt : key (d j) < key (d (j - 1)) := (lessGo_iff key d j (j - 1)).1 hless
      have e2 : swapGo d j (j - 1) j = d (j - 1) := swapGo_left d j (j - 1)
      have e1 : swapGo d j (j - 1) (j - 1) = d j := swapGo_right d j (j - 1)
      have e3 : ∀ k, k ≠ j → k ≠ j - 1 → swapGo d j (j - 1) k = d k :=
        fun k h1 h2 => swapGo_other d h1 h2
      apply ih _ (j - 1) (by omega) (by omega) (by omega)
      · exact sortedRange_congr
          (fun k hk1 hk2 => (e3 k (by omega) (by omega)).symm)
          (sortedRange_sub hpre (le_refl a) (by omega))
      · intro p q hp hpq hq
        rcases eq_or_lt_of_le hpq with hpq' | hpq'
        · rw [hpq']
        rcases eq_or_ne p (j - 1) with hp' | hp'
        · subst hp'
          rw [e1]
          rcases eq_or_ne q j with hq' | hq'
          · rw [hq', e2]
            exact hlt.le
          · rw [e3 q hq' (by omega)]
            exact hsuf j q (le_refl j) (by omega) (by omega)
        · rcases eq_or_ne p j with hp'' | hp''
          · rw [hp'', e2, e3 q (by omega) (by omega)]
            exact hbr (j - 1) q (by omega) (by omega) (by omega) (by omega)
          · rw [e3 p hp'' hp', e3 q (by omega) (by omega)]
            exact hsuf p q (by omega) (by omega) (by omega)
      · intro p q hp1 hp2 hq1 hq2
        rw [e3 p (by omega) (by omega)]
        rcases eq_or_ne q j with hq' | hq'
        · rw [hq', e2]
          exact hpre p (j - 1) hp1 (by omega) (by omega)
        · rw [e3 q hq' (by omega)]
          exact hbr p q hp1 (by omega) (by omega) hq2
    · rcases eq_or_lt_of_le hja with hja' | hja'
      · rw [← hja'] at hsuf
        exact hsuf
      · have hle : key (d (j - 1)) ≤ key (d j) := by
          have : lessGo key d j (j - 1) = false := by
            rcases Bool.eq_false_or_eq_true (lessGo key d j (j - 1)) with hb | hb
            · exact absurd ⟨hja', hb⟩ h
            · exact hb
          exact (lessGo_eq_false_iff key d j (j - 1)).1 this
        intro p q hp hpq hq
        rcases lt_or_le q j with hqj | hqj
        · exact hpre p q hp hpq hqj
        · rcases lt_or_le p j with hpj | hpj
          · rcases eq_or_lt_of_le hqj with hqj' | hqj'
            · rw [← hqj']
              calc key (d p) ≤ key (d (j - 1)) :=
                    hpre p (j - 1) hp (by omega) (by omega)
                _ ≤ key (d j) := hle
            · exact hbr p q hp hpj hqj' (by omega)
          · exact hsuf p q hpj hpq hq

theorem insertionLoop_confined {α : Type} (key : α → String) (a b : Nat) :
    ∀ (n : Nat) (d : Nat → α) (i : Nat), n = b - i → a < i →
    Confined a b d (insertionLoop key a b n d i) := by
  intro n
  induction n with
  | zero => intro d i _ _; exact Confined.rfl
  | succ n ih =>
    intro d i hn hai
    have hstep : insertionLoop key a b (n + 1) d i =
        insertionLoop key a b n (insertionInner key a (i - a) d i) (i + 1) := rfl
    rw [hstep]
    exact Confined.trans
      (insertionInner_confined key a b (i - a) d i (by omega) (by omega))
      (ih _ (i + 1) (by omega) (by omega))

theorem insertionLoop_sorts {α : Type} (key : α → String) (a b : Nat) :
    ∀ (n : Nat) (d : Nat → α) (i : Nat), n = b - i → a < i →
    sortedRange key d a i →
    sortedRange key (insertionLoop key a b n d i) a b := by
  intro n
  induction n with
  | zero =>
    intro d i hn hai hsor
    exact sortedRange_sub hsor (le_refl a) (by omega)
  | succ n ih =>
    intro d i hn hai hsor
    have hstep : insertionLoop key a b (n + 1) d i =
        insertionLoop key a b n (insertionInner key a (i - a) d i) (i + 1) := rfl
    rw [hstep]
    apply ih _ (i + 1) (by omega) (by omega)
    apply insertionInner_sorts key a i (i - a) d i rfl (by omega) (le_refl i) hsor
      (sortedRange_small key d (by omega))
    intro p q _ _ h1 h2
    exact absurd h1 (by omega)

theorem insertionSortGo_sorts {α : Type} (key : α → String) (d : Nat → α)
    (a b : Nat) : sortedRange key (insertionSortGo key d a b) a b :=
  insertionLoop_sorts key a b _ d (a + 1) rfl (by omega)
    (sortedRange_small key d (by omega))

theorem insertionSortGo_confined {α : Type} (key : α → String) (d : Nat → α)
    (a b : Nat) : Confined a b d (insertionSortGo key d a b) :=
  insertionLoop_confined key a b _ d (a + 1) rfl (by omega)

theorem shellLoop_confined {α : Type} (key : α → String) (a b : Nat) :
    ∀ (n : Nat) (d : Nat → α) (i : Nat), n = b - i → a + 6 ≤ i →
    Confined a b d (shellLoop key b n d i) := by
  intro n
  induction n with
  | zero => intro d i _ _; exact Confined.rfl
  | succ n ih =>
    intro d i hn hai
    have hstep : shellLoop key b (n + 1) d i =
        shellLoop key b n
          (if lessGo key d i (i - 6) then swapGo d i (i - 6) else d) (i + 1) := rfl
    rw [hstep]
    refine Confined.trans ?_ (ih _ (i + 1) (by omega) (by omega))
    split_ifs with h
    · exact Confined.swap d (by omega) (by omega) (by omega) (by omega)
    · exact Confined.rfl

theorem shellPass_confined {α : Type} (key : α → String) (d : Nat → α)
    (a b : Nat) : Confined a b d (shellPass key d a b) :=
  shellLoop_confined key a b _ d (a + 6) rfl (le_refl _)

/-  ---------------------------------------------------------------------
    Heapsort
    --------------------------------------------------------------------- -/

/- Exit case of the `siftDown` loop at a leaf: the current root has no
   children inside the region, so all remaining edges are covered by the
   everywhere-but-the-root hypothesis. -/
theorem siftDown_leaf_heap {α : Type} (key : α → String)
    {first hi i r : Nat} {d : Nat → α} (hir : i ≤ r) (hleaf : hi ≤ 2 * r + 1)
    (hJ1 : ∀ p c, i ≤ p → (c = 2 * p + 1 ∨ c = 2 * p + 2) → c < hi → p ≠ r →
      key (d (first + c)) ≤ key (d (first + p))) :
    heapAbove key d first hi i := by
  intro p c hp hc hchi
  rcases eq_or_ne p r with hpr | hpr
  · exact absurd hchi (by rcases hc with hc | hc <;> omega)
  · exact hJ1 p c hp hc hchi hpr

/- Exit case of the `siftDown` loop when the root dominates its larger
   child: all edges hold. -/
theorem siftDown_exit_heap {α : Type} (key : α → String)
    {first hi i r child : Nat} {d : Nat → α} (hir : i ≤ r)
    (hJ1 : ∀ p c, i ≤ p → (c = 2 * p + 1 ∨ c = 2 * p + 2) → c < hi → p ≠ r →
      key (d (first + c)) ≤ key (d (first + p)))
    (hdom : ∀ c, (c = 2 * r + 1 ∨ c = 2 * r + 2) → c < hi →
      key (d (first + c)) ≤ key (d (first + child)))
    (hle : key (d (first + child)) ≤ key (d (first + r))) :
    heapAbove key d first hi i := by
  intro p c hp hc hchi
  rcases eq_or_ne p r with hpr | hpr
  · rw [hpr]
    rw [hpr] at hc
    exact le_trans (hdom c hc hchi) hle
  · exact hJ1 p c hp hc hchi hpr

/- After swapping the root with its dominating child, the two loop
   invariants hold again at the child. -/
theorem siftDown_swap_invs {α : Type} (key : α → String)
    {first hi i r child : Nat} {d : Nat → α} (hir : i ≤ r)
    (hrc1 : 2 * r + 1 ≤ child) (hrc2 : child ≤ 2 * r + 2) (hchi : child < hi)
    (hJ1 : ∀ p c, i ≤ p → (c = 2 * p + 1 ∨ c = 2 * p + 2) → c < hi → p ≠ r →
      key (d (first + c)) ≤ key (d (first + p)))
    (hJ2 : ∀ c, i < r → (c = 2 * r + 1 ∨ c = 2 * r + 2) → c < hi →
      key (d (first + c)) ≤ key (d (first + (r - 1) / 2)))
    (hdom : ∀ c, (c = 2 * r + 1 ∨ c = 2 * r + 2) → c < hi →
      key (d (first + c)) ≤ key (d (first + child)))
    (hless : key (d (first + r)) < key (d (first + child))) :
    (∀ p c, i ≤ p → (c = 2 * p + 1 ∨ c = 2 * p + 2) → c < hi → p ≠ child →
      key (swapGo d (first + r) (first + child) (first + c)) ≤
        key (swapGo d (first + r) (first + child) (first + p))) ∧
    (∀ c, i < child → (c = 2 * child + 1 ∨ c = 2 * child + 2) → c < hi →
      key (swapGo d (first + r) (first + child) (first + c)) ≤
        key (swapGo d (first + r) (first + child)
          (first + (child - 1) / 2))) := by
  have er : swapGo d (first + r) (first + child) (first + r) = d (first + child) :=
    swapGo_left d _ _
  have ec : swapGo d (first + r) (first + child) (first + child) = d (first + r) :=
    swapGo_right d _ _
  have eo : ∀ k, k ≠ r → k ≠ child →
      swapGo d (first + r) (first + child) (first + k) = d (first + k) :=
    fun k h1 h2 => swapGo_other d (by omega) (by omega)
  constructor
  · intro p c hp hc hchi' hpc
    by_cases hcr : c = r
    · have hplt : p < r := by rcases hc with hc | hc <;> omega
      have hpval : p = (r - 1) / 2 := by rcases hc with hc | hc <;> omega
      rw [hcr, er, eo p (by omega) (by
        rcases hc with hc | hc <;> omega)]
      rw [hpval]
      exact hJ2 child (by omega) (by omega) hchi
    · by_cases hcc : c = child
      · have hpr : p = r := by
          rcases hc with hc | hc <;> omega
        rw [hcc, ec, hpr, er]
        exact hless.le
      · by_cases hpr : p = r
        · rw [hpr] at hc
          rw [eo c hcr hcc, hpr, er]
          exact hdom c hc hchi'
        · rw [eo c hcr hcc, eo p hpr hpc]
          exact hJ1 p c hp hc hchi' hpr
  · intro c hic hc hchi'
    have hcp : (child - 1) / 2 = r := by omega
    rw [hcp, er, eo c (by rcases hc with hc | hc <;> omega)
      (by rcases hc with hc | hc <;> omega)]
    exact hJ1 child c (by omega) hc hchi' (by omega)

theorem siftDownLoop_spec {α : Type} (key : α → String) (first hi i : Nat) :
    ∀ (n : Nat) (d : Nat → α) (r : Nat), hi - r ≤ n → i ≤ r →
    (∀ p c, i ≤ p → (c = 2 * p + 1 ∨ c = 2 * p + 2) → c < hi → p ≠ r →
      key (d (first + c)) ≤ key (d (first + p))) →
    (∀ c, i < r → (c = 2 * r + 1 ∨ c = 2 * r + 2) → c < hi →
      key (d (first + c)) ≤ key (d (first + (r - 1) / 2))) →
    heapAbove key (siftDownLoop key hi first n d r) first hi i ∧
    Confined first (first + hi) d (siftDownLoop key hi first n d r) := by
  intro n
  induction n with
  | zero =>
    intro d r hbud hir hJ1 hJ2
    exact ⟨siftDown_leaf_heap key hir (by omega) hJ1, Confined.rfl⟩
  | succ n ih =>
    intro d r hbud hir hJ1 hJ2
    simp only [siftDownLoop]
    by_cases h1 : 2 * r + 1 ≥ hi
    · rw [if_pos h1]
      exact ⟨siftDown_leaf_heap key hir (by omega) hJ1, Confined.rfl⟩
    · rw [if_neg h1]
      by_cases hC : 2 * r + 1 + 1 < hi ∧
          lessGo key d (first + (2 * r + 1)) (first + (2 * r + 1) + 1)
      · rw [if_pos hC]
        obtain ⟨hC1, hC2⟩ := hC
        have hdom : ∀ c, (c = 2 * r + 1 ∨ c = 2 * r + 2) → c < hi →
            key (d (first + c)) ≤ key (d (first + (2 * r + 1 + 1))) := by
          intro c hc hchi
          rw [show first + (2 * r + 1 + 1) = first + (2 * r + 1) + 1 by omega]
          rcases hc with hc | hc
          · rw [hc]
            exact ((lessGo_iff key d _ _).1 hC2).le
          · rw [hc, show first + (2 * r + 1) + 1 = first + (2 * r + 2) by omega]
        by_cases hless : lessGo key d (first + r) (first + (2 * r + 1 + 1)) = true
        · rw [if_neg (not_not.mpr hless)]
          have hinv := siftDown_swap_invs key hir (by omega) (by omega)
            (by omega) hJ1 hJ2 hdom ((lessGo_iff key d _ _).1 hless)
          obtain ⟨hh, hc⟩ := ih (swapGo d (first + r) (first + (2 * r + 1 + 1)))
            (2 * r + 1 + 1) (by omega) (by omega) hinv.1 hinv.2
          exact ⟨hh, Confined.trans
            (Confined.swap d (by omega) (by omega) (by omega) (by omega)) hc⟩
        · rw [if_pos hless]
          have hf : lessGo key d (first + r) (first + (2 * r + 1 + 1)) = false :=
            Bool.eq_false_iff.mpr hless
          exact ⟨siftDown_exit_heap key hir hJ1 hdom
            ((lessGo_eq_false_iff key d _ _).1 hf), Confined.rfl⟩
      · rw [if_neg hC]
        have hdom : ∀ c, (c = 2 * r + 1 ∨ c = 2 * r + 2) → c < hi →
            key (d (first + c)) ≤ key (d (first + (2 * r + 1))) := by
          intro c hc hchi
          rcases hc with hc | hc
          · rw [hc]
          · have hl : lessGo key d (first + (2 * r + 1))
                (first + (2 * r + 1) + 1) = false := by
              refine Bool.eq_false_iff.mpr (fun hlt => hC ⟨by omega, hlt⟩)
            have := (lessGo_eq_false_iff key d _ _).1 hl
            rw [hc, show first + (2 * r + 2) = first + (2 * r + 1) + 1 by omega]
            exact this
        by_cases hless : lessGo key d (first + r) (first + (2 * r + 1)) = true
        · rw [if_neg (not_not.mpr hless)]
          have hinv := siftDown_swap_invs key hir (by omega) (by omega)
            (by omega) hJ1 hJ2 hdom ((lessGo_iff key d _ _).1 hless)
          obtain ⟨hh, hc⟩ := ih (swapGo d (first + r) (first + (2 * r + 1)))
            (2 * r + 1) (by omega) (by omega) hinv.1 hinv.2
          exact ⟨hh, Confined.trans
            (Confined.swap d (by omega) (by omega) (by omega) (by omega)) hc⟩
        · rw [if_pos hless]
          have hf : lessGo key d (first + r) (first + (2 * r + 1)) = false :=
            Bool.eq_false_iff.mpr hless
          exact ⟨siftDown_exit_heap key hir hJ1 hdom
            ((lessGo_eq_false_iff key d _ _).1 hf), Confined.rfl⟩

theorem siftDownGo_spec {α : Type} (key : α → String) (first hi i : Nat)
    (d : Nat → α) (r : Nat) (hir : i ≤ r)
    (hJ1 : ∀ p c, i ≤ p → (c = 2 * p + 1 ∨ c = 2 * p + 2) → c < hi → p ≠ r →
      key (d (first + c)) ≤ key (d (first + p)))
    (hJ2 : ∀ c, i < r → (c = 2 * r + 1 ∨ c = 2 * r + 2) → c < hi →
      key (d (first + c)) ≤ key (d (first + (r - 1) / 2))) :
    heapAbove key (siftDownGo key d r hi first) first hi i ∧
    Confined first (first + hi) d (siftDownGo key d r hi first) :=
  siftDownLoop_spec key first hi i (hi - r) d r (le_refl _) hir hJ1 hJ2

theorem heapBuild_spec {α : Type} (key : α → String) (hi first : Nat) :
    ∀ (cnt : Nat) (d : Nat → α), heapAbove key d first hi cnt →
    heapAbove key (heapBuild key hi first cnt d) first hi 0 ∧
    Confined first (first + hi) d (heapBuild key hi first cnt d) := by
  intro cnt
  induction cnt with
  | zero => intro d h; exact ⟨h, Confined.rfl⟩
  | succ c ih =>
    intro d h
    have hstep : heapBuild key hi first (c + 1) d =
        heapBuild key hi first c (siftDownGo key d c hi first) := rfl
    rw [hstep]
    have hsd := siftDownGo_spec key first hi c d c (le_refl c)
      (fun p c' hp hc' hchi hpc => h p c' (by omega) hc' hchi)
      (fun c' hcc _ _ => absurd hcc (lt_irrefl c))
    obtain ⟨hh, hc1⟩ := hsd
    obtain ⟨hh2, hc2⟩ := ih _ hh
    exact ⟨hh2, Confined.trans hc1 hc2⟩

/- In a max-heap the root holds a maximal key. -/
theorem heapAbove_root_max {α : Type} (key : α → String) {d : Nat → α}
    {first m : Nat} (h : heapAbove key d first m 0) :
    ∀ p, p < m → key (d (first + p)) ≤ key (d (first + 0)) := by
  intro p
  induction p using Nat.strong_induction_on with
  | _ p ih =>
    intro hp
    rcases Nat.eq_zero_or_pos p with h0 | h0
    · rw [h0]
    · have hpar := h ((p - 1) / 2) p (Nat.zero_le _) (by omega) hp
      exact le_trans hpar (ih ((p - 1) / 2) (by omega) (by omega))

theorem heapPop_spec {α : Type} (key : α → String) (first hi₀ : Nat) :
    ∀ (n : Nat) (d : Nat → α), n ≤ hi₀ →
    heapAbove key d first n 0 →
    sortedRange key d (first + n) (first + hi₀) →
    (∀ p q, p < n → n ≤ q → q < hi₀ →
      key (d (first + p)) ≤ key (d (first + q))) →
    sortedRange key (heapPop key first n d) first (first + hi₀) ∧
    Confined first (first + hi₀) d (heapPop key first n d) := by
  intro n
  induction n with
  | zero =>
    intro d h0 hheap htail hbound
    have hstep : heapPop key first 0 d = d := rfl
    rw [hstep]
    refine ⟨?_, Confined.rfl⟩
    rwa [Nat.add_zero] at htail
  | succ n ih =>
    intro d h0 hheap htail hbound
    have hstep : heapPop key first (n + 1) d =
        heapPop key first n (siftDownGo key (swapGo d first (first + n)) 0 n first) := rfl
    rw [hstep]
    have e1 : swapGo d first (first + n) first = d (first + n) :=
      swapGo_left d _ _
    have e2 : swapGo d first (first + n) (first + n) = d first :=
      swapGo_right d _ _
    have e3 : ∀ k, k ≠ 0 → k ≠ n →
        swapGo d first (first + n) (first + k) = d (first + k) := by
      intro k h1 h2
      exact swapGo_other d (by omega) (by omega)
    have hval : ∀ x, first + n < x →
        swapGo d first (first + n) x = d x := by
      intro x h1
      rw [show x = first + (x - first) by omega]
      exact e3 (x - first) (by omega) (by omega)
    have hmax := heapAbove_root_max key hheap
    have hsd := siftDownGo_spec key first n 0 (swapGo d first (first + n)) 0
      (le_refl 0)
      (by
        intro p c _ hc hcn hp0
        rw [e3 c (by rcases hc with hc | hc <;> omega) (by omega),
          e3 p hp0 (by rcases hc with hc | hc <;> omega)]
        exact hheap p c (Nat.zero_le _) hc (by omega))
      (fun c' hcc _ _ => absurd hcc (by omega))
    obtain ⟨hheap2, hconf2⟩ := hsd
    have htail1 : sortedRange key (swapGo d first (first + n))
        (first + n) (first + hi₀) := by
      intro i j hij1 hij2 hij3
      by_cases hi' : i = first + n
      · by_cases hj' : j = first + n
        · rw [hi', hj']
        · rw [hi', e2, hval j (by omega)]
          have hb := hbound 0 (j - first) (by omega) (by omega) (by omega)
          rw [Nat.add_zero, show first + (j - first) = j by omega] at hb
          exact hb
      · rw [hval i (by omega), hval j (by omega)]
        exact htail i j (by omega) hij2 hij3
    have htail2 : sortedRange key (siftDownGo key (swapGo d first (first + n)) 0 n first)
        (first + n) (first + hi₀) := by
      apply sortedRange_congr ?he htail1
      intro x h1 h2
      exact (hconf2.outside (Or.inr h1)).symm
    have hbound1 : ∀ k, k < n →
        key (swapGo d first (first + n) (first + k)) ≤ key (d first) := by
      intro k hk
      rcases Nat.eq_zero_or_pos k with hk0 | hk0
      · rw [hk0, show first + 0 = first by omega, e1]
        have := hmax n (by omega)
        rwa [Nat.add_zero] at this
      · rw [e3 k (by omega) (by omega)]
        have := hmax k (by omega)
        rwa [Nat.add_zero] at this
    have hbound2 : ∀ p q, p < n → n ≤ q → q < hi₀ →
        key (siftDownGo key (swapGo d first (first + n)) 0 n first (first + p)) ≤
        key (siftDownGo key (swapGo d first (first + n)) 0 n first (first + q)) := by
      intro p q hp hq1 hq2
      have eq2 : siftDownGo key (swapGo d first (first + n)) 0 n first (first + q) =
          swapGo d first (first + n) (first + q) :=
        hconf2.outside (Or.inr (by omega))
      have hall := hconf2.all_range
        (fun x => key x ≤ key (swapGo d first (first + n) (first + q)))
        (by
          intro k hk1 hk2
          have hkk : swapGo d first (first + n) k =
              swapGo d first (first + n) (first + (k - first)) := by
            rw [show first + (k - first) = k by omega]
          rcases eq_or_lt_of_le hq1 with hq' | hq'
          · rw [hkk, ← hq', e2]
            exact hbound1 (k - first) (by omega)
          · rw [hkk, hval (first + q) (by omega)]
            rcases Nat.eq_zero_or_pos (k - first) with hk0 | hk0
            · rw [hk0, show first + 0 = first by omega, e1]
              exact hbound n q (by omega) (by omega) (by omega)
            · rw [e3 (k - first) (by omega) (by omega)]
              exact hbound (k - first) q (by omega) (by omega) (by omega))
      rw [eq2]
      exact hall (first + p) (by omega) (by omega)
    obtain ⟨hsor, hconf3⟩ := ih (siftDownGo key (swapGo d first (first + n)) 0 n first)
      (by omega) hheap2 htail2 hbound2
    refine ⟨hsor, ?_⟩
    refine Confined.trans (Confined.swap d (by omega) (by omega) (by omega) (by omega))
      (Confined.trans (Confined.mono (le_refl first) (by omega) hconf2) hconf3)

theorem heapSortGo_spec {α : Type} (key : α → String) (d : Nat → α) (a b : Nat) :
    sortedRange key (heapSortGo key d a b) a b ∧
    Confined a b d (heapSortGo key d a b) := by
  have hstep : heapSortGo key d a b =
      heapPop key a (b - a) (heapBuild key (b - a) a ((b - a - 1) / 2 + 1) d) := rfl
  rw [hstep]
  by_cases hab : a ≤ b
  · have hpre : heapAbove key d a (b - a) ((b - a - 1) / 2 + 1) := by
      intro p c hp hc hchi
      exact absurd hchi (by rcases hc with hc | hc <;> omega)
    obtain ⟨hb1, hb2⟩ := heapBuild_spec key (b - a) a ((b - a - 1) / 2 + 1) d hpre
    obtain ⟨hp1, hp2⟩ := heapPop_spec key a (b - a) (b - a) _ (le_refl _) hb1
      (by
        intro i j h1 h2 h3
        exact absurd (lt_of_le_of_lt (le_trans h1 h2) h3) (lt_irrefl _))
      (by
        intro p q hp hq1 hq2
        exact absurd (lt_of_le_of_lt hq1 hq2) (lt_irrefl _))
    rw [show a + (b - a) = b by omega] at hp1 hp2 hb2
    exact ⟨hp1, Confined.trans hb2 hp2⟩
  · have hz : heapPop key a (b - a) (heapBuild key (b - a) a ((b - a - 1) / 2 + 1) d) = d := by
      rw [show b - a = 0 by omega]
      rfl
    rw [hz]
    exact ⟨sortedRange_small key d (by omega), Confined.rfl⟩

/-  ---------------------------------------------------------------------
    doPivot: scan-loop specifications
    --------------------------------------------------------------------- -/

/-  Scan-loop specifications for `doPivot`. -/

theorem skipLtLoop_spec {α : Type} (key : α → String) (d : Nat → α)
    (pivot : Nat) :
    ∀ (n a₀ : Nat),
      a₀ ≤ skipLtLoop key d pivot n a₀ ∧
      skipLtLoop key d pivot n a₀ ≤ a₀ + n ∧
      ∀ k, a₀ ≤ k → k < skipLtLoop key d pivot n a₀ →
        key (d k) < key (d pivot) := by
  intro n
  induction n with
  | zero =>
    intro a₀
    unfold skipLtLoop
    exact ⟨le_refl _, by omega, fun k h1 h2 => absurd h2 (by omega)⟩
  | succ n ih =>
    intro a₀
    unfold skipLtLoop
    split
    case isTrue h =>
      obtain ⟨ih1, ih2, ih3⟩ := ih (a₀ + 1)
      refine ⟨by omega, by omega, ?_⟩
      intro k h1 h2
      rcases eq_or_lt_of_le h1 with rfl | h1'
      · exact (lessGo_iff key d a₀ pivot).1 h
      · exact ih3 k (by omega) h2
    case isFalse h =>
      exact ⟨le_refl _, by omega, fun k h1 h2 => absurd h1 (by omega)⟩

theorem bScanLoop_spec {α : Type} (key : α → String) (d : Nat → α)
    (pivot : Nat) :
    ∀ (n b₀ : Nat),
      b₀ ≤ bScanLoop key d pivot n b₀ ∧
      bScanLoop key d pivot n b₀ ≤ b₀ + n ∧
      (∀ k, b₀ ≤ k → k < bScanLoop key d pivot n b₀ →
        key (d k) ≤ key (d pivot)) ∧
      (bScanLoop key d pivot n b₀ < b₀ + n →
        key (d pivot) < key (d (bScanLoop key d pivot n b₀))) := by
  intro n
  induction n with
  | zero =>
    intro b₀
    unfold bScanLoop
    exact ⟨le_refl _, by omega, fun k h1 h2 => absurd h2 (by omega),
      fun h => absurd h (by omega)⟩
  | succ n ih =>
    intro b₀
    unfold bScanLoop
    split
    case isTrue h =>
      have hf : lessGo key d pivot b₀ = false := Bool.eq_false_iff.mpr h
      obtain ⟨ih1, ih2, ih3, ih4⟩ := ih (b₀ + 1)
      refine ⟨by omega, by omega, ?_, ?_⟩
      · intro k h1 h2
        rcases eq_or_lt_of_le h1 with rfl | h1'
        · exact (lessGo_eq_false_iff key d pivot b₀).1 hf
        · exact ih3 k (by omega) h2
      · intro hlt
        exact ih4 (by omega)
    case isFalse h =>
      have ht : lessGo key d pivot b₀ = true := not_not.1 h
      exact ⟨le_refl _, by omega, fun k h1 h2 => absurd h2 (by omega),
        fun _ => (lessGo_iff key d pivot b₀).1 ht⟩

theorem cScanLoop_spec {α : Type} (key : α → String) (d : Nat → α)
    (pivot b : Nat) :
    ∀ (n c₀ : Nat),
      cScanLoop key d pivot b n c₀ ≤ c₀ ∧
      c₀ - n ≤ cScanLoop key d pivot b n c₀ ∧
      (∀ k, cScanLoop key d pivot b n c₀ ≤ k → k < c₀ →
        key (d pivot) < key (d k)) ∧
      (c₀ - n < cScanLoop key d pivot b n c₀ →
        key (d (cScanLoop key d pivot b n c₀ - 1)) ≤ key (d pivot)) := by
  intro n
  induction n with
  | zero =>
    intro c₀
    unfold cScanLoop
    exact ⟨le_refl _, by omega, fun k h1 h2 => absurd h2 (by omega),
      fun h => absurd h (by omega)⟩
  | succ n ih =>
    intro c₀
    unfold cScanLoop
    split
    case isTrue h =>
      obtain ⟨ih1, ih2, ih3, ih4⟩ := ih (c₀ - 1)
      refine ⟨by omega, by omega, ?_, ?_⟩
      · intro k h1 h2
        rcases lt_or_ge k (c₀ - 1) with hk | hk
        · exact ih3 k h1 hk
        · have hkc : k = c₀ - 1 := by omega
          rw [hkc]
          exact (lessGo_iff key d pivot (c₀ - 1)).1 h
      · intro hlt
        exact ih4 (by omega)
    case isFalse h =>
      have hf : lessGo key d pivot (c₀ - 1) = false := Bool.eq_false_iff.mpr h
      exact ⟨le_refl _, by omega, fun k h1 h2 => absurd h2 (by omega),
        fun _ => (lessGo_eq_false_iff key d pivot (c₀ - 1)).1 hf⟩

theorem protBLoop_spec {α : Type} (key : α → String) (d : Nat → α)
    (pivot a : Nat) :
    ∀ (n b₀ : Nat),
      protBLoop key d pivot a n b₀ ≤ b₀ ∧
      b₀ - n ≤ protBLoop key d pivot a n b₀ ∧
      (∀ k, protBLoop key d pivot a n b₀ ≤ k → k < b₀ →
        key (d pivot) ≤ key (d k)) ∧
      (b₀ - n < protBLoop key d pivot a n b₀ →
        key (d (protBLoop key d pivot a n b₀ - 1)) < key (d pivot)) := by
  intro n
  induction n with
  | zero =>
    intro b₀
    unfold protBLoop
    exact ⟨le_refl _, by omega, fun k h1 h2 => absurd h2 (by omega),
      fun h => absurd h (by omega)⟩
  | succ n ih =>
    intro b₀
    unfold protBLoop
    split
    case isTrue h =>
      have hf : lessGo key d (b₀ - 1) pivot = false := Bool.eq_false_iff.mpr h
      obtain ⟨ih1, ih2, ih3, ih4⟩ := ih (b₀ - 1)
      refine ⟨by omega, by omega, ?_, ?_⟩
      · intro k h1 h2
        rcases lt_or_ge k (b₀ - 1) with hk | hk
        · exact ih3 k h1 hk
        · have hkb : k = b₀ - 1 := by omega
          rw [hkb]
          exact (lessGo_eq_false_iff key d (b₀ - 1) pivot).1 hf
      · intro hlt
        exact ih4 (by omega)
    case isFalse h =>
      have ht : lessGo key d (b₀ - 1) pivot = true := not_not.1 h
      exact ⟨le_refl _, by omega, fun k h1 h2 => absurd h2 (by omega),
        fun _ => (lessGo_iff key d (b₀ - 1) pivot).1 ht⟩

theorem protALoop_spec {α : Type} (key : α → String) (d : Nat → α)
    (pivot b : Nat) :
    ∀ (n a₀ : Nat),
      a₀ ≤ protALoop key d pivot b n a₀ ∧
      protALoop key d pivot b n a₀ ≤ a₀ + n ∧
      (∀ k, a₀ ≤ k → k < protALoop key d pivot b n a₀ →
        key (d k) < key (d pivot)) ∧
      (protALoop key d pivot b n a₀ < a₀ + n →
        key (d pivot) ≤ key (d (protALoop key d pivot b n a₀))) := by
  intro n
  induction n with
  | zero =>
    intro a₀
    unfold protALoop
    exact ⟨le_refl _, by omega, fun k h1 h2 => absurd h2 (by omega),
      fun h => absurd h (by omega)⟩
  | succ n ih =>
    intro a₀
    unfold protALoop
    split
    case isTrue h =>
      obtain ⟨ih1, ih2, ih3, ih4⟩ := ih (a₀ + 1)
      refine ⟨by omega, by omega, ?_, ?_⟩
      · intro k h1 h2
        rcases eq_or_lt_of_le h1 with rfl | h1'
        · exact (lessGo_iff key d a₀ pivot).1 h
        · exact ih3 k (by omega) h2
      · intro hlt
        exact ih4 (by omega)
    case isFalse h =>
      have hf : lessGo key d a₀ pivot = false := Bool.eq_false_iff.mpr h
      exact ⟨le_refl _, by omega, fun k h1 h2 => absurd h2 (by omega),
        fun _ => (lessGo_eq_false_iff key d a₀ pivot).1 hf⟩

/-  ---------------------------------------------------------------------
    doPivot: medianOfThree
    --------------------------------------------------------------------- -/

/- Confinement of a conditional swap. -/
theorem Confined.ite_swap {α : Type} {lo hi i j : Nat} (d : Nat → α)
    (c : Prop) [Decidable c]
    (hi1 : lo ≤ i) (hi2 : i < hi) (hj1 : lo ≤ j) (hj2 : j < hi) :
    Confined lo hi d (if c then swapGo d i j else d) := by
  split
  · exact Confined.swap d hi1 hi2 hj1 hj2
  · exact Confined.rfl

theorem medianOfThreeGo_confined {α : Type} (key : α → String) (d : Nat → α)
    {lo hi m1 m0 m2 : Nat}
    (h1a : lo ≤ m1) (h1b : m1 < hi) (h0a : lo ≤ m0) (h0b : m0 < hi)
    (h2a : lo ≤ m2) (h2b : m2 < hi) :
    Confined lo hi d (medianOfThreeGo key d m1 m0 m2) := by
  simp only [medianOfThreeGo]
  have stage2 : ∀ d1 : Nat → α,
      Confined lo hi d1
        (if lessGo key d1 m2 m1 = true then
          (if lessGo key (swapGo d1 m2 m1) m1 m0 = true then
            swapGo (swapGo d1 m2 m1) m1 m0
           else swapGo d1 m2 m1)
         else d1) := by
    intro d1
    split
    · refine Confined.trans (Confined.swap _ h2a h2b h1a h1b) ?_
      exact Confined.ite_swap _ (lessGo key (swapGo d1 m2 m1) m1 m0 = true)
        h1a h1b h0a h0b
    · exact Confined.rfl
  split
  case isTrue h =>
    exact Confined.trans (Confined.swap d h1a h1b h0a h0b)
      (stage2 (swapGo d m1 m0))
  case isFalse h =>
    exact stage2 d

/- The second half of `medianOfThree`, on a state whose `m0`/`m1` cells are
   already ordered. -/
theorem medianStep2 {α : Type} (key : α → String) (d1 : Nat → α)
    {m1 m0 m2 : Nat} (h01 : m0 ≠ m1) (h02 : m0 ≠ m2) (h12 : m1 ≠ m2)
    (h : key (d1 m0) ≤ key (d1 m1)) :
    key ((if lessGo key d1 m2 m1 then
            (if lessGo key (swapGo d1 m2 m1) m1 m0 then
              swapGo (swapGo d1 m2 m1) m1 m0
             else swapGo d1 m2 m1)
          else d1) m0) ≤
      key ((if lessGo key d1 m2 m1 then
            (if lessGo key (swapGo d1 m2 m1) m1 m0 then
              swapGo (swapGo d1 m2 m1) m1 m0
             else swapGo d1 m2 m1)
          else d1) m1) ∧
    key ((if lessGo key d1 m2 m1 then
            (if lessGo key (swapGo d1 m2 m1) m1 m0 then
              swapGo (swapGo d1 m2 m1) m1 m0
             else swapGo d1 m2 m1)
          else d1) m1) ≤
      key ((if lessGo key d1 m2 m1 then
            (if lessGo key (swapGo d1 m2 m1) m1 m0 then
              swapGo (swapGo d1 m2 m1) m1 m0
             else swapGo d1 m2 m1)
          else d1) m2) := by
  have e22 : swapGo d1 m2 m1 m2 = d1 m1 := swapGo_left d1 m2 m1
  have e21 : swapGo d1 m2 m1 m1 = d1 m2 := swapGo_right d1 m2 m1
  have e20 : swapGo d1 m2 m1 m0 = d1 m0 := swapGo_other d1 h02 h01
  split
  case isTrue c2 =>
    have hlt : key (d1 m2) < key (d1 m1) := by
      have := (lessGo_iff key d1 m2 m1).1 c2
      exact this
    split
    case isTrue c3 =>
      have f31 : swapGo (swapGo d1 m2 m1) m1 m0 m1 = d1 m0 := by
        rw [swapGo_left, e20]
      have f30 : swapGo (swapGo d1 m2 m1) m1 m0 m0 = d1 m2 := by
        rw [swapGo_right, e21]
      have f32 : swapGo (swapGo d1 m2 m1) m1 m0 m2 = d1 m1 := by
        rw [swapGo_other _ h12.symm h02.symm, e22]
      rw [f31, f30, f32]
      have hlt3 : key (d1 m2) < key (d1 m0) := by
        have := (lessGo_iff key (swapGo d1 m2 m1) m1 m0).1 c3
        rwa [e21, e20] at this
      exact ⟨le_of_lt hlt3, h⟩
    case isFalse c3 =>
      rw [e20, e21, e22]
      have hle3 : key (d1 m0) ≤ key (d1 m2) := by
        have := (lessGo_eq_false_iff key (swapGo d1 m2 m1) m1 m0).1
          (Bool.eq_false_iff.mpr c3)
        rwa [e21, e20] at this
      exact ⟨hle3, le_of_lt hlt⟩
  case isFalse c2 =>
    have hle : key (d1 m1) ≤ key (d1 m2) :=
      (lessGo_eq_false_iff key d1 m2 m1).1 (Bool.eq_false_iff.mpr c2)
    exact ⟨h, hle⟩

theorem medianOfThreeGo_sorted3 {α : Type} (key : α → String) (d : Nat → α)
    {m1 m0 m2 : Nat} (h01 : m0 ≠ m1) (h02 : m0 ≠ m2) (h12 : m1 ≠ m2) :
    key (medianOfThreeGo key d m1 m0 m2 m0) ≤
      key (medianOfThreeGo key d m1 m0 m2 m1) ∧
    key (medianOfThreeGo key d m1 m0 m2 m1) ≤
      key (medianOfThreeGo key d m1 m0 m2 m2) := by
  simp only [medianOfThreeGo]
  split
  case isTrue c1 =>
    have e10 : swapGo d m1 m0 m0 = d m1 := swapGo_right d m1 m0
    have e11 : swapGo d m1 m0 m1 = d m0 := swapGo_left d m1 m0
    have hq1 : key (swapGo d m1 m0 m0) ≤ key (swapGo d m1 m0 m1) := by
      rw [e10, e11]
      exact le_of_lt ((lessGo_iff key d m1 m0).1 c1)
    exact medianStep2 key (swapGo d m1 m0) h01 h02 h12 hq1
  case isFalse c1 =>
    have hq1 : key (d m0) ≤ key (d m1) :=
      (lessGo_eq_false_iff key d m1 m0).1 (Bool.eq_false_iff.mpr c1)
    exact medianStep2 key d h01 h02 h12 hq1

/-  ---------------------------------------------------------------------
    doPivot: partition loop
    --------------------------------------------------------------------- -/

/- Invariant-carrying specification of the main partition loop: starting
   from a state whose `[lo+1, b)` cells are at most the pivot cell `lo` and
   whose `[c, hi-1)` cells exceed it, the loop ends with `b = c`, the region
   `[lo+1, b)` at most the pivot and `[b, hi-1)` above it, moving only cells
   of `[b, c)`. -/
theorem partLoop_spec {α : Type} (key : α → String) (lo hi : Nat) :
    ∀ (n : Nat) (d : Nat → α) (b c : Nat), c - b < n →
      lo + 1 ≤ b → c ≤ hi - 1 → b ≤ c →
      (∀ k, lo + 1 ≤ k → k < b → key (d k) ≤ key (d lo)) →
      (∀ k, c ≤ k → k < hi - 1 → key (d lo) < key (d k)) →
      ∀ dr br cr, partLoop key lo n d b c = (dr, br, cr) →
        br = cr ∧ b ≤ br ∧ cr ≤ c ∧ Confined b c d dr ∧
        (∀ k, lo + 1 ≤ k → k < br → key (dr k) ≤ key (dr lo)) ∧
        (∀ k, br ≤ k → k < hi - 1 → key (dr lo) < key (dr k)) := by
  intro n
  induction n with
  | zero =>
    intro d b c hfuel
    exact absurd hfuel (Nat.not_lt_zero _)
  | succ n ih =>
    intro d b c hfuel hb hc hbc hIlow hIhigh dr br cr heq
    set b1 := bScanLoop key d lo (c - b) b with hb1
    set c1 := cScanLoop key d lo b1 (c - b1) c with hc1
    have hstep : partLoop key lo (n + 1) d b c =
        if b1 ≥ c1 then (d, b1, c1)
        else partLoop key lo n (swapGo d b1 (c1 - 1)) (b1 + 1) (c1 - 1) := rfl
    rw [hstep] at heq
    have hbspec := bScanLoop_spec key d lo (c - b) b
    rw [← hb1] at hbspec
    obtain ⟨hb1le, hb1ub, hbscan, hbstop⟩ := hbspec
    have hcspec := cScanLoop_spec key d lo b1 (c - b1) c
    rw [← hc1] at hcspec
    obtain ⟨hc1le, hc1lb, hcscan, hcstop⟩ := hcspec
    have hb1c : b1 ≤ c := by omega
    have hb1c1 : b1 ≤ c1 := by omega
    have hIlow' : ∀ k, lo + 1 ≤ k → k < b1 → key (d k) ≤ key (d lo) := by
      intro k h1 h2
      rcases lt_or_ge k b with hk | hk
      · exact hIlow k h1 hk
      · exact hbscan k hk h2
    have hIhigh' : ∀ k, c1 ≤ k → k < hi - 1 → key (d lo) < key (d k) := by
      intro k h1 h2
      rcases lt_or_ge k c with hk | hk
      · exact hcscan k h1 hk
      · exact hIhigh k hk h2
    by_cases hge : b1 ≥ c1
    · rw [if_pos hge] at heq
      simp only [Prod.mk.injEq] at heq
      obtain ⟨rfl, rfl, rfl⟩ := heq
      refine ⟨by omega, hb1le, hc1le, Confined.rfl, hIlow', ?_⟩
      intro k h1 h2
      exact hIhigh' k (by omega) h2
    · rw [if_neg hge] at heq
      push_neg at hge
      have hbsf : key (d lo) < key (d b1) := hbstop (by omega)
      have hcsf : key (d (c1 - 1)) ≤ key (d lo) := hcstop (by omega)
      have hb1ne : b1 < c1 - 1 := by
        rcases Nat.lt_or_ge (b1 + 1) c1 with hl | hl
        · omega
        · exfalso
          have hceq : c1 - 1 = b1 := by omega
          rw [hceq] at hcsf
          exact absurd hbsf (not_lt.2 hcsf)
      have hlo_b1 : swapGo d b1 (c1 - 1) lo = d lo :=
        swapGo_other d (by omega) (by omega)
      have hlow2 : ∀ k, lo + 1 ≤ k → k < b1 + 1 →
          key (swapGo d b1 (c1 - 1) k) ≤ key (swapGo d b1 (c1 - 1) lo) := by
        intro k h1 h2
        rw [hlo_b1]
        rcases eq_or_ne k b1 with rfl | hk
        · rw [swapGo_left]
          exact hcsf
        · rw [swapGo_other d hk (by omega)]
          exact hIlow' k h1 (by omega)
      have hhigh2 : ∀ k, c1 - 1 ≤ k → k < hi - 1 →
          key (swapGo d b1 (c1 - 1) lo) < key (swapGo d b1 (c1 - 1) k) := by
        intro k h1 h2
        rw [hlo_b1]
        rcases eq_or_ne k (c1 - 1) with rfl | hk
        · rw [swapGo_right]
          exact hbsf
        · rw [swapGo_other d (by omega) hk]
          exact hIhigh' k (by omega) h2
      obtain ⟨r1, r2, r3, r4, r5, r6⟩ :=
        ih (swapGo d b1 (c1 - 1)) (b1 + 1) (c1 - 1) (by omega) (by omega)
          (by omega) (by omega) hlow2 hhigh2 dr br cr heq
      refine ⟨r1, by omega, by omega, ?_, r5, r6⟩
      exact Confined.trans
        (Confined.swap d (by omega) (by omega) (by omega) (by omega))
        (Confined.mono (by omega) (by omega) r4)

/-  ---------------------------------------------------------------------
    doPivot: protect loop and duplicate-protection steps
    --------------------------------------------------------------------- -/

/- Step 1 of the duplicate-protection block: when the last cell equals the
   pivot, `Swap(c, hi-1)` extends the equal region to `[c, c+1)`. -/
theorem dupsStep1 {α : Type} {key : α → String} {lo hi a c : Nat}
    {d : Nat → α}
    (hS : DupState key lo hi a c c d)
    (hle : key (d (hi - 1)) ≤ key (d lo))
    (ha1 : lo + 1 ≤ a) (hac : a ≤ c) (hchi : c < hi - 1) :
    DupState key lo hi a c (c + 1) (swapGo d c (hi - 1)) := by
  obtain ⟨hstrict, hlow, hmid, hhigh, hlast⟩ := hS
  have hlo : swapGo d c (hi - 1) lo = d lo :=
    swapGo_other d (by omega) (by omega)
  have hc : swapGo d c (hi - 1) c = d (hi - 1) := swapGo_left d c (hi - 1)
  have hhi1 : swapGo d c (hi - 1) (hi - 1) = d c := swapGo_right d c (hi - 1)
  refine ⟨?_, ?_, ?_, ?_, ?_⟩
  · intro k h1 h2
    rw [hlo, swapGo_other d (by omega) (by omega)]
    exact hstrict k h1 h2
  · intro k h1 h2
    rw [hlo, swapGo_other d (by omega) (by omega)]
    exact hlow k h1 h2
  · intro k h1 h2
    have hk : k = c := by omega
    rw [hk, hlo, hc]
    exact le_antisymm hle hlast
  · intro k h1 h2
    rw [hlo, swapGo_other d (by omega) (by omega)]
    exact hhigh k (by omega) h2
  · rw [hlo, hhi1]
    exact le_of_lt (hhigh c (le_refl c) hchi)

/- Step 2: when the cell left of `b` equals the pivot, `b--` extends the
   equal region to `[b-1, cc)`; the strict region forces `a ≤ b - 1`. -/
theorem dupsStep2 {α : Type} {key : α → String} {lo hi a bb cc : Nat}
    {d : Nat → α}
    (hS : DupState key lo hi a bb cc d)
    (hge : key (d lo) ≤ key (d (bb - 1)))
    (hblo : lo + 2 ≤ bb) :
    a ≤ bb - 1 ∧ DupState key lo hi a (bb - 1) cc d := by
  obtain ⟨hstrict, hlow, hmid, hhigh, hlast⟩ := hS
  have heq : key (d (bb - 1)) = key (d lo) :=
    le_antisymm (hlow (bb - 1) (by omega) (by omega)) hge
  have hba : a ≤ bb - 1 := by
    by_contra hcon
    push_neg at hcon
    have := hstrict (bb - 1) (by omega) (by omega)
    rw [heq] at this
    exact lt_irrefl _ this
  refine ⟨hba, hstrict, fun k h1 h2 => hlow k h1 (by omega), ?_, hhigh, hlast⟩
  intro k h1 h2
  rcases eq_or_lt_of_le h1 with hk | hk
  · rw [← hk]
    exact heq
  · exact hmid k (by omega) h2

/- Step 3: when the middle cell `m` equals the pivot, `Swap(m, b-1)` then
   `b--` extends the equal region to `[b-1, cc)`. -/
theorem dupsStep3 {α : Type} {key : α → String} {lo hi a bb cc m : Nat}
    {d : Nat → α}
    (hS : DupState key lo hi a bb cc d)
    (hge : key (d lo) ≤ key (d m))
    (ha1 : lo + 1 ≤ a) (hab : a ≤ bb)
    (hm1 : lo + 1 ≤ m) (hmb : m < bb) (hbcc : bb ≤ cc) (hcchi : cc ≤ hi - 1) :
    a ≤ bb - 1 ∧ DupState key lo hi a (bb - 1) cc (swapGo d m (bb - 1)) := by
  obtain ⟨hstrict, hlow, hmid, hhigh, hlast⟩ := hS
  have heqm : key (d m) = key (d lo) :=
    le_antisymm (hlow m hm1 hmb) hge
  have hma : a ≤ m := by
    by_contra hcon
    push_neg at hcon
    have := hstrict m hm1 hcon
    rw [heqm] at this
    exact lt_irrefl _ this
  have hba : a ≤ bb - 1 := by omega
  have hlo : swapGo d m (bb - 1) lo = d lo :=
    swapGo_other d (by omega) (by omega)
  have hmv : swapGo d m (bb - 1) m = d (bb - 1) := swapGo_left d m (bb - 1)
  have hbv : swapGo d m (bb - 1) (bb - 1) = d m := by
    rcases eq_or_ne m (bb - 1) with he | hne
    · rw [← he, swapGo_self]
    · exact swapGo_right d m (bb - 1)
  refine ⟨hba, ?_, ?_, ?_, ?_, ?_⟩
  · intro k h1 h2
    rw [hlo, swapGo_other d (by omega) (by omega)]
    exact hstrict k h1 h2
  · intro k h1 h2
    rw [hlo]
    rcases eq_or_ne k m with rfl | hkm
    · rw [hmv]
      exact hlow (bb - 1) (by omega) (by omega)
    · rw [swapGo_other d hkm (by omega)]
      exact hlow k h1 (by omega)
  · intro k h1 h2
    rw [hlo]
    rcases eq_or_lt_of_le h1 with hk | hk
    · rw [← hk, hbv]
      exact heqm
    · rw [swapGo_other d (by omega) (by omega)]
      exact hmid k (by omega) h2
  · intro k h1 h2
    rw [hlo, swapGo_other d (by omega) (by omega)]
    exact hhigh k h1 h2
  · rw [hlo, swapGo_other d (by omega) (by omega)]
    exact hlast


/- Invariant-carrying specification of the duplicate-protection loop:
   starting from a strict region `[lo+1, a)` below the pivot and a region
   `[a, b)` at most the pivot, it ends with `[lo+1, br)` strictly below and
   `[br, b)` equal to the pivot, moving only cells of `[a, b)`. -/
theorem protLoop_spec {α : Type} (key : α → String) (lo : Nat) :
    ∀ (n : Nat) (d : Nat → α) (a b : Nat), b - a < n →
      lo + 1 ≤ a → a ≤ b →
      (∀ k, lo + 1 ≤ k → k < a → key (d k) < key (d lo)) →
      (∀ k, a ≤ k → k < b → key (d k) ≤ key (d lo)) →
      ∀ dr ar br, protLoop key lo n d a b = (dr, ar, br) →
        a ≤ br ∧ br ≤ b ∧ Confined a b d dr ∧
        (∀ k, lo + 1 ≤ k → k < br → key (dr k) < key (dr lo)) ∧
        (∀ k, br ≤ k → k < b → key (dr k) = key (dr lo)) := by
  intro n
  induction n with
  | zero =>
    intro d a b hfuel
    exact absurd hfuel (Nat.not_lt_zero _)
  | succ n ih =>
    intro d a b hfuel ha hab hIlt hIle dr ar br heq
    set b1 := protBLoop key d lo a (b - a) b with hb1
    set a1 := protALoop key d lo b1 (b1 - a) a with ha1
    have hstep : protLoop key lo (n + 1) d a b =
        if a1 ≥ b1 then (d, a1, b1)
        else protLoop key lo n (swapGo d a1 (b1 - 1)) (a1 + 1) (b1 - 1) := rfl
    rw [hstep] at heq
    have hbspec := protBLoop_spec key d lo a (b - a) b
    rw [← hb1] at hbspec
    obtain ⟨hb1le, hb1lb, hbscan, hbstop⟩ := hbspec
    have haspec := protALoop_spec key d lo b1 (b1 - a) a
    rw [← ha1] at haspec
    obtain ⟨ha1le, ha1ub, hascan, hastop⟩ := haspec
    have hab1 : a ≤ b1 := by omega
    have ha1b1 : a1 ≤ b1 := by omega
    have hIlt' : ∀ k, lo + 1 ≤ k → k < a1 → key (d k) < key (d lo) := by
      intro k h1 h2
      rcases lt_or_ge k a with hk | hk
      · exact hIlt k h1 hk
      · exact hascan k hk h2
    have hImid' : ∀ k, b1 ≤ k → k < b → key (d k) = key (d lo) := by
      intro k h1 h2
      exact le_antisymm (hIle k (by omega) h2) (hbscan k h1 h2)
    by_cases hge : a1 ≥ b1
    · rw [if_pos hge] at heq
      simp only [Prod.mk.injEq] at heq
      obtain ⟨rfl, rfl, rfl⟩ := heq
      refine ⟨hab1, hb1le, Confined.rfl, ?_, hImid'⟩
      intro k h1 h2
      exact hIlt' k h1 (by omega)
    · rw [if_neg hge] at heq
      push_neg at hge
      have hasf : key (d lo) ≤ key (d a1) := hastop (by omega)
      have hbsf : key (d (b1 - 1)) < key (d lo) := hbstop (by omega)
      have ha1ne : a1 < b1 - 1 := by
        rcases Nat.lt_or_ge (a1 + 1) b1 with hl | hl
        · omega
        · exfalso
          have hbeq : b1 - 1 = a1 := by omega
          rw [hbeq] at hbsf
          exact absurd hbsf (not_lt.2 hasf)
      have hlo_a1 : swapGo d a1 (b1 - 1) lo = d lo :=
        swapGo_other d (by omega) (by omega)
      have hlt2 : ∀ k, lo + 1 ≤ k → k < a1 + 1 →
          key (swapGo d a1 (b1 - 1) k) < key (swapGo d a1 (b1 - 1) lo) := by
        intro k h1 h2
        rw [hlo_a1]
        rcases eq_or_ne k a1 with rfl | hk
        · rw [swapGo_left]
          exact hbsf
        · rw [swapGo_other d hk (by omega)]
          exact hIlt' k h1 (by omega)
      have hle2 : ∀ k, a1 + 1 ≤ k → k < b1 - 1 →
          key (swapGo d a1 (b1 - 1) k) ≤ key (swapGo d a1 (b1 - 1) lo) := by
        intro k h1 h2
        rw [hlo_a1, swapGo_other d (by omega) (by omega)]
        exact hIle k (by omega) (by omega)
      obtain ⟨r1, r2, r3, r4, r5⟩ :=
        ih (swapGo d a1 (b1 - 1)) (a1 + 1) (b1 - 1) (by omega) (by omega)
          (by omega) hlt2 hle2 dr ar br heq
      have hconf : Confined a b d dr :=
        Confined.trans
          (Confined.swap d (by omega) (by omega) (by omega) (by omega))
          (Confined.mono (by omega) (by omega) r3)
      have hdr_lo : dr lo = d lo := by
        rw [r3.outside (Or.inl (by omega)), hlo_a1]
      have hdr_b11 : dr (b1 - 1) = d a1 := by
        rw [r3.outside (Or.inr (by omega)), swapGo_right]
      have hdr_out : ∀ k, b1 ≤ k → dr k = d k := by
        intro k hk
        rw [r3.outside (Or.inr (by omega)), swapGo_other d (by omega) (by omega)]
      refine ⟨by omega, by omega, hconf, r4, ?_⟩
      intro k h1 h2
      rcases lt_or_ge k (b1 - 1) with hk | hk
      · exact r5 k h1 hk
      · rcases eq_or_lt_of_le hk with hk' | hk'
        · rw [← hk', hdr_b11, hdr_lo]
          exact le_antisymm (hIle a1 (by omega) (by omega)) hasf
        · rw [hdr_out k (by omega), hdr_lo]
          exact hImid' k (by omega) h2


/- Specification of the duplicate-protection block: it preserves the region
   invariants, only permutes cells of `[lo, hi)`, leaves the pivot cell in
   place, and keeps the boundaries ordered. -/
theorem doPivotDups_spec {α : Type} (key : α → String) {lo hi m a b c : Nat}
    (d : Nat → α)
    (hrange : lo + 12 < hi)
    (hm : m = (lo + hi) / 2)
    (ha1 : lo + 1 ≤ a) (hab : a ≤ b) (hbc : b = c) (hchi : c ≤ hi - 1)
    (hS : DupState key lo hi a b c d) :
    ∀ dr br cr pr, doPivotDups key lo hi m d b c = (dr, br, cr, pr) →
      Confined lo hi d dr ∧ dr lo = d lo ∧
      a ≤ br ∧ br ≤ cr ∧ cr ≤ hi - 1 ∧
      DupState key lo hi a br cr dr := by
  subst hbc
  intro dr br cr pr heq
  by_cases hfire : ((!decide (hi - b < 5)) = true ∧ hi - b < (hi - lo) / 4)
  case neg =>
    simp only [doPivotDups] at heq
    rw [if_neg hfire] at heq
    simp only [Prod.mk.injEq] at heq
    obtain ⟨rfl, rfl, rfl, rfl⟩ := heq
    exact ⟨Confined.rfl, rfl, hab, le_refl _, hchi, hS⟩
  case pos =>
    have h5 : 5 ≤ hi - b := by
      have h := hfire.1
      simp only [Bool.not_eq_true', decide_eq_false_iff_not] at h
      omega
    have h4 := hfire.2
    have hblo10 : lo + 10 ≤ b := by omega
    have hbhi5 : b ≤ hi - 5 := by omega
    have hm6 : lo + 6 ≤ m := by omega
    have hmhi : m < hi - 1 := by omega
    have hmb1 : m < b - 1 := by omega
    simp only [doPivotDups] at heq
    rw [if_pos hfire] at heq
    cases ht1 : lessGo key d lo (hi - 1) with
    | false =>
      have hle1 : key (d (hi - 1)) ≤ key (d lo) :=
        (lessGo_eq_false_iff key d lo (hi - 1)).1 ht1
      have hS1 : DupState key lo hi a b (b + 1) (swapGo d b (hi - 1)) :=
        dupsStep1 hS hle1 ha1 hab (by omega)
      set d1 := swapGo d b (hi - 1) with hd1
      have hC1 : Confined lo hi d d1 :=
        Confined.swap d (by omega) (by omega) (by omega) (by omega)
      have hd1lo : d1 lo = d lo := swapGo_other d (by omega) (by omega)
      cases ht2 : lessGo key d1 (b - 1) lo with
      | false =>
        have hge2 : key (d1 lo) ≤ key (d1 (b - 1)) :=
          (lessGo_eq_false_iff key d1 (b - 1) lo).1 ht2
        obtain ⟨hba2, hS2⟩ := dupsStep2 hS1 hge2 (by omega)
        cases ht3 : lessGo key d1 m lo with
        | false =>
          have hge3 : key (d1 lo) ≤ key (d1 m) :=
            (lessGo_eq_false_iff key d1 m lo).1 ht3
          obtain ⟨hba3, hS3⟩ := dupsStep3 hS2 hge3 ha1 hba2 (by omega)
            (by omega) (by omega) (by omega)
          simp [ht1, ht2, ht3] at heq
          obtain ⟨rfl, rfl, rfl, rfl⟩ := heq
          refine ⟨Confined.trans hC1 (Confined.swap d1 (by omega) (by omega)
            (by omega) (by omega)), ?_, hba3, by omega, by omega, hS3⟩
          rw [swapGo_other d1 (by omega) (by omega), hd1lo]
        | true =>
          simp [ht1, ht2, ht3] at heq
          obtain ⟨rfl, rfl, rfl, rfl⟩ := heq
          exact ⟨hC1, hd1lo, hba2, by omega, by omega, hS2⟩
      | true =>
        cases ht3 : lessGo key d1 m lo with
        | false =>
          have hge3 : key (d1 lo) ≤ key (d1 m) :=
            (lessGo_eq_false_iff key d1 m lo).1 ht3
          obtain ⟨hba3, hS3⟩ := dupsStep3 hS1 hge3 ha1 hab (by omega)
            (by omega) (by omega) (by omega)
          simp [ht1, ht2, ht3] at heq
          obtain ⟨rfl, rfl, rfl, rfl⟩ := heq
          refine ⟨Confined.trans hC1 (Confined.swap d1 (by omega) (by omega)
            (by omega) (by omega)), ?_, hba3, by omega, by omega, hS3⟩
          rw [swapGo_other d1 (by omega) (by omega), hd1lo]
        | true =>
          simp [ht1, ht2, ht3] at heq
          obtain ⟨rfl, rfl, rfl, rfl⟩ := heq
          exact ⟨hC1, hd1lo, hab, by omega, by omega, hS1⟩
    | true =>
      cases ht2 : lessGo key d (b - 1) lo with
      | false =>
        have hge2 : key (d lo) ≤ key (d (b - 1)) :=
          (lessGo_eq_false_iff key d (b - 1) lo).1 ht2
        obtain ⟨hba2, hS2⟩ := dupsStep2 hS hge2 (by omega)
        cases ht3 : lessGo key d m lo with
        | false =>
          have hge3 : key (d lo) ≤ key (d m) :=
            (lessGo_eq_false_iff key d m lo).1 ht3
          obtain ⟨hba3, hS3⟩ := dupsStep3 hS2 hge3 ha1 hba2 (by omega)
            (by omega) (by omega) (by omega)
          simp [ht1, ht2, ht3] at heq
          obtain ⟨rfl, rfl, rfl, rfl⟩ := heq
          refine ⟨Confined.swap d (by omega) (by omega) (by omega) (by omega),
            ?_, hba3, by omega, by omega, hS3⟩
          rw [swapGo_other d (by omega) (by omega)]
        | true =>
          simp [ht1, ht2, ht3] at heq
          obtain ⟨rfl, rfl, rfl, rfl⟩ := heq
          exact ⟨Confined.rfl, rfl, hba2, by omega, by omega, hS2⟩
      | true =>
        cases ht3 : lessGo key d m lo with
        | false =>
          have hge3 : key (d lo) ≤ key (d m) :=
            (lessGo_eq_false_iff key d m lo).1 ht3
          obtain ⟨hba3, hS3⟩ := dupsStep3 hS hge3 ha1 hab (by omega)
            (by omega) (by omega) (by omega)
          simp [ht1, ht2, ht3] at heq
          obtain ⟨rfl, rfl, rfl, rfl⟩ := heq
          refine ⟨Confined.swap d (by omega) (by omega) (by omega) (by omega),
            ?_, hba3, by omega, by omega, hS3⟩
          rw [swapGo_other d (by omega) (by omega)]
        | true =>
          simp [ht1, ht2, ht3] at heq
          obtain ⟨rfl, rfl, rfl, rfl⟩ := heq
          exact ⟨Confined.rfl, rfl, hab, by omega, by omega, hS⟩

/-  ---------------------------------------------------------------------
    doPivot: full specification
    --------------------------------------------------------------------- -/

/- Confinement of the ninther step. -/
theorem nintherGo_confined {α : Type} (key : α → String) (d : Nat → α)
    {lo hi m : Nat} (hm : m = (lo + hi) / 2) :
    Confined lo hi d (nintherGo key d lo hi m) := by
  simp only [nintherGo]
  split
  case isTrue hgt =>
    set s := (hi - lo) / 8 with hs
    set d1 := medianOfThreeGo key d lo (lo + s) (lo + 2 * s) with hd1
    set d2 := medianOfThreeGo key d1 m (m - s) (m + s) with hd2
    refine Confined.trans (show Confined lo hi d d1 from ?_)
      (Confined.trans (show Confined lo hi d1 d2 from ?_) ?_)
    · exact medianOfThreeGo_confined key d (le_refl lo) (by omega) (by omega)
        (by omega) (by omega) (by omega)
    · exact medianOfThreeGo_confined key d1 (by omega) (by omega) (by omega)
        (by omega) (by omega) (by omega)
    · exact medianOfThreeGo_confined key d2 (by omega) (by omega) (by omega)
        (by omega) (by omega) (by omega)
  case isFalse hgt =>
    exact Confined.rfl

/- The final swap of `doPivot` turns the region invariants into the
   three-way partition property around `(b-1, c)`. -/
theorem doPivotFinish_regions {α : Type} (key : α → String)
    {lo hi a bF cF : Nat} {dF : Nat → α}
    (hrange : lo + 12 < hi)
    (ha1 : lo + 1 ≤ a) (habF : a ≤ bF) (hbcF : bF ≤ cF) (hcFhi : cF ≤ hi - 1)
    (hlowF : ∀ k, lo + 1 ≤ k → k < bF → key (dF k) ≤ key (dF lo))
    (hmidF : ∀ k, bF ≤ k → k < cF → key (dF k) = key (dF lo))
    (hhighF : ∀ k, cF ≤ k → k < hi - 1 → key (dF lo) < key (dF k))
    (hlastF : key (dF lo) ≤ key (dF (hi - 1))) :
    Confined lo hi dF (swapGo dF lo (bF - 1)) ∧
    lo ≤ bF - 1 ∧ bF - 1 < cF ∧ cF ≤ hi ∧
    (∀ i, lo ≤ i → i < bF - 1 →
      key (swapGo dF lo (bF - 1) i) ≤ key (swapGo dF lo (bF - 1) (bF - 1))) ∧
    (∀ i, bF - 1 ≤ i → i < cF →
      key (swapGo dF lo (bF - 1) i) = key (swapGo dF lo (bF - 1) (bF - 1))) ∧
    (∀ i, cF ≤ i → i < hi →
      key (swapGo dF lo (bF - 1) (bF - 1)) ≤ key (swapGo dF lo (bF - 1) i)) := by
  have e1 : swapGo dF lo (bF - 1) (bF - 1) = dF lo := swapGo_right dF lo (bF - 1)
  have e0 : swapGo dF lo (bF - 1) lo = dF (bF - 1) := swapGo_left dF lo (bF - 1)
  refine ⟨Confined.swap dF (le_refl lo) (by omega) (by omega) (by omega),
    by omega, by omega, by omega, ?_, ?_, ?_⟩
  · intro i h1 h2
    rw [e1]
    rcases eq_or_lt_of_le h1 with rfl | h1'
    · rw [e0]
      exact hlowF (bF - 1) (by omega) (by omega)
    · rw [swapGo_other dF (by omega) (by omega)]
      exact hlowF i (by omega) (by omega)
  · intro i h1 h2
    rw [e1]
    rcases eq_or_lt_of_le h1 with rfl | h1'
    · rw [e1]
    · rw [swapGo_other dF (by omega) (by omega)]
      exact hmidF i (by omega) h2
  · intro i h1 h2
    rw [e1]
    rcases lt_or_ge i (hi - 1) with hk | hk
    · rw [swapGo_other dF (by omega) (by omega)]
      exact le_of_lt (hhighF i h1 hk)
    · have hke : i = hi - 1 := by omega
      rw [hke, swapGo_other dF (by omega) (by omega)]
      exact hlastF

/- Full specification of `doPivot` on a range of at least 13 cells: it
   permutes `[lo, hi)` and produces `(midlo, midhi)` with the cells of
   `[lo, midlo)` at most the pivot value at `midlo`, the cells of
   `[midlo, midhi)` equal to it, and the cells of `[midhi, hi)` at least
   it. -/
theorem doPivotGo_spec {α : Type} (key : α → String) (d : Nat → α)
    (lo hi : Nat) (hrange : lo + 12 < hi) :
    ∀ dr mlo mhi, doPivotGo key d lo hi = (dr, mlo, mhi) →
      Confined lo hi d dr ∧
      lo ≤ mlo ∧ mlo < mhi ∧ mhi ≤ hi ∧
      (∀ i, lo ≤ i → i < mlo → key (dr i) ≤ key (dr mlo)) ∧
      (∀ i, mlo ≤ i → i < mhi → key (dr i) = key (dr mlo)) ∧
      (∀ i, mhi ≤ i → i < hi → key (dr mlo) ≤ key (dr i)) := by
  intro dr mlo mhi heq
  set m := (lo + hi) / 2 with hm
  set dB := medianOfThreeGo key (nintherGo key d lo hi m) lo m (hi - 1)
    with hdB
  set a := skipLtLoop key dB lo ((hi - 1) - (lo + 1)) (lo + 1) with ha
  set p := partLoop key lo ((hi - 1) - a + 1) dB a (hi - 1) with hp
  have hstep : doPivotGo key d lo hi =
      doPivotFinish key lo a (doPivotDups key lo hi m p.1 p.2.1 p.2.2) := rfl
  rw [hstep] at heq
  have hconfB : Confined lo hi d dB := by
    rw [hdB]
    exact Confined.trans (nintherGo_confined key d hm)
      (medianOfThreeGo_confined key _ (le_refl lo) (by omega) (by omega)
        (by omega) (by omega) (by omega))
  have hmed := medianOfThreeGo_sorted3 key (nintherGo key d lo hi m)
    (show m ≠ lo by omega) (show m ≠ hi - 1 by omega)
    (show lo ≠ hi - 1 by omega)
  rw [← hdB] at hmed
  obtain ⟨-, hlast⟩ := hmed
  have hskip := skipLtLoop_spec key dB lo ((hi - 1) - (lo + 1)) (lo + 1)
  rw [← ha] at hskip
  obtain ⟨ha1, ha2, hstrict0⟩ := hskip
  have hahi : a ≤ hi - 1 := by omega
  obtain ⟨hbc, hba, hcb, hconfP, hlowP, hhighP⟩ :=
    partLoop_spec key lo hi ((hi - 1) - a + 1) dB a (hi - 1) (by omega)
      ha1 (le_refl _) hahi
      (fun k h1 h2 => le_of_lt (hstrict0 k h1 h2))
      (fun k h1 h2 => absurd (lt_of_le_of_lt h1 h2) (lt_irrefl _))
      p.1 p.2.1 p.2.2 (by rw [hp])
  have hPlo : p.1 lo = dB lo := hconfP.outside (Or.inl (by omega))
  have hstrictP : ∀ k, lo + 1 ≤ k → k < a → key (p.1 k) < key (p.1 lo) := by
    intro k h1 h2
    rw [hconfP.outside (Or.inl h2), hPlo]
    exact hstrict0 k h1 h2
  have hlastP : key (p.1 lo) ≤ key (p.1 (hi - 1)) := by
    rw [hPlo, hconfP.outside (Or.inr (le_refl _))]
    exact hlast
  have hSP : DupState key lo hi a p.2.1 p.2.2 p.1 := by
    refine ⟨hstrictP, hlowP, ?_, ?_, hlastP⟩
    · intro k h1 h2
      exact absurd (lt_of_le_of_lt h1 h2) (by omega)
    · intro k h1 h2
      exact hhighP k (by omega) h2
  rcases hdu : doPivotDups key lo hi m p.1 p.2.1 p.2.2 with ⟨dD, bD, cD, prD⟩
  obtain ⟨hconfD, hDlo, habD, hbcD, hcDhi, hSD⟩ :=
    doPivotDups_spec key p.1 hrange hm ha1 hba hbc hcb hSP dD bD cD prD hdu
  obtain ⟨hstrictD, hlowD, hmidD, hhighD, hlastD⟩ := hSD
  rw [hdu] at heq
  simp only [doPivotFinish] at heq
  have hconfdP : Confined lo hi d p.1 :=
    Confined.trans hconfB (Confined.mono (by omega) (by omega) hconfP)
  cases prD with
  | false =>
    simp only [Bool.false_eq_true, if_false, reduceIte, Prod.mk.injEq] at heq
    obtain ⟨rfl, rfl, rfl⟩ := heq
    obtain ⟨hcsw, hb1, hb2, hb3, hP1, hP2, hP3⟩ :=
      doPivotFinish_regions key hrange ha1 habD hbcD hcDhi hlowD hmidD
        hhighD hlastD
    exact ⟨Confined.trans (Confined.trans hconfdP hconfD) hcsw,
      hb1, hb2, hb3, hP1, hP2, hP3⟩
  | true =>
    rcases hpl : protLoop key lo (bD - a + 1) dD a bD with ⟨dL, aL, bL⟩
    rw [hpl] at heq
    simp only [if_true, reduceIte, Prod.mk.injEq] at heq
    obtain ⟨rfl, rfl, rfl⟩ := heq
    obtain ⟨habL, hbLb, hconfL, hstrictL, hmidL⟩ :=
      protLoop_spec key lo (bD - a + 1) dD a bD (by omega) ha1 habD
        hstrictD (fun k h1 h2 => hlowD k (by omega) h2) dL aL bL hpl
    have hLlo : dL lo = dD lo := hconfL.outside (Or.inl (by omega))
    have hlowL : ∀ k, lo + 1 ≤ k → k < bL → key (dL k) ≤ key (dL lo) :=
      fun k h1 h2 => le_of_lt (hstrictL k h1 h2)
    have hmidL' : ∀ k, bL ≤ k → k < cD → key (dL k) = key (dL lo) := by
      intro k h1 h2
      rcases lt_or_ge k bD with hk | hk
      · exact hmidL k h1 hk
      · rw [hconfL.outside (Or.inr hk), hLlo]
        exact hmidD k hk h2
    have hhighL : ∀ k, cD ≤ k → k < hi - 1 → key (dL lo) < key (dL k) := by
      intro k h1 h2
      rw [show dL k = dD k from hconfL.outside (Or.inr (by omega)), hLlo]
      exact hhighD k h1 h2
    have hlastL : key (dL lo) ≤ key (dL (hi - 1)) := by
      rw [show dL (hi - 1) = dD (hi - 1) from
        hconfL.outside (Or.inr (by omega)), hLlo]
      exact hlastD
    obtain ⟨hcsw, hb1, hb2, hb3, hP1, hP2, hP3⟩ :=
      doPivotFinish_regions key hrange ha1 habL (by omega) hcDhi hlowL
        hmidL' hhighL hlastL
    refine ⟨?_, hb1, hb2, hb3, hP1, hP2, hP3⟩
    refine Confined.trans (Confined.trans hconfdP hconfD) ?_
    exact Confined.trans (Confined.mono (by omega) (by omega) hconfL) hcsw

/-  ---------------------------------------------------------------------
    quickSort and Sort
    --------------------------------------------------------------------- -/

/- A range that splits into a sorted low part, a constant middle part equal
   to the value at `mlo`, and a sorted high part, all ordered against that
   value, is sorted. -/
theorem sorted_of_pivot_regions {α : Type} {key : α → String} {d : Nat → α}
    {a mlo mhi b : Nat}
    (hm2 : mlo < mhi)
    (hs1 : sortedRange key d a mlo) (hs2 : sortedRange key d mhi b)
    (hP1 : ∀ i, a ≤ i → i < mlo → key (d i) ≤ key (d mlo))
    (hP2 : ∀ i, mlo ≤ i → i < mhi → key (d i) = key (d mlo))
    (hP3 : ∀ i, mhi ≤ i → i < b → key (d mlo) ≤ key (d i)) :
    sortedRange key d a b := by
  intro i j hi hij hj
  rcases lt_or_ge i mlo with hiA | hiB
  · rcases lt_or_ge j mlo with hjA | hjB
    · exact hs1 i j hi hij hjA
    · refine le_trans (hP1 i hi hiA) ?_
      rcases lt_or_ge j mhi with hjM | hjC
      · exact (hP2 j hjB hjM).ge
      · exact hP3 j hjC hj
  · rcases lt_or_ge i mhi with hiM | hiC
    · have hpi := hP2 i hiB hiM
      rcases lt_or_ge j mhi with hjM | hjC
      · rw [hpi, hP2 j (by omega) hjM]
      · rw [hpi]
        exact hP3 j hjC hj
    · exact hs2 i j hiC hij hj

/- Pointwise facts transfer through a permutation of a range's contents. -/
theorem perm_all_range {α : Type} {a b : Nat} {d d' : Nat → α}
    (hpm : (rangeList d' a b).Perm (rangeList d a b)) (P : α → Prop)
    (hp : ∀ i, a ≤ i → i < b → P (d i)) :
    ∀ i, a ≤ i → i < b → P (d' i) := by
  intro i h1 h2
  have hmem : d' i ∈ rangeList d' a b := mem_rangeList.mpr ⟨i, h1, h2, Eq.refl _⟩
  have hmem' : d' i ∈ rangeList d a b := hpm.mem_iff.1 hmem
  obtain ⟨j, hj1, hj2, hji⟩ := mem_rangeList.1 hmem'
  rw [← hji]
  exact hp j hj1 hj2

/- Sorting the two outer thirds of a pivoted range (in either order) yields
   a sorted range. -/
theorem quickSort_combine {α : Type} {key : α → String} {dP d2 : Nat → α}
    {a mlo mhi b : Nat}
    (hm2 : mlo < mhi)
    (hP1 : ∀ i, a ≤ i → i < mlo → key (dP i) ≤ key (dP mlo))
    (hP2 : ∀ i, mlo ≤ i → i < mhi → key (dP i) = key (dP mlo))
    (hP3 : ∀ i, mhi ≤ i → i < b → key (dP mlo) ≤ key (dP i))
    (hmid : ∀ k, mlo ≤ k → k < mhi → d2 k = dP k)
    (hApm : (rangeList d2 a mlo).Perm (rangeList dP a mlo))
    (hCpm : (rangeList d2 mhi b).Perm (rangeList dP mhi b))
    (hsA : sortedRange key d2 a mlo) (hsC : sortedRange key d2 mhi b) :
    sortedRange key d2 a b := by
  have hval : d2 mlo = dP mlo := hmid mlo (le_refl _) hm2
  refine sorted_of_pivot_regions hm2 hsA hsC ?_ ?_ ?_
  · intro i h1 h2
    rw [hval]
    exact perm_all_range hApm (fun x => key x ≤ key (dP mlo)) hP1 i h1 h2
  · intro i h1 h2
    rw [hval, hmid i h1 h2]
    exact hP2 i h1 h2
  · intro i h1 h2
    rw [hval]
    exact perm_all_range hCpm (fun x => key (dP mlo) ≤ key x) hP3 i h1 h2

/- `quickSort` sorts its range and only permutes it, for every depth
   budget. -/
theorem quickSortGo_spec {α : Type} (key : α → String) :
    ∀ (depth : Nat) (d : Nat → α) (a b : Nat),
      sortedRange key (quickSortGo key depth d a b) a b ∧
      Confined a b d (quickSortGo key depth d a b) := by
  intro depth
  induction depth with
  | zero =>
    intro d a b
    have hstep : quickSortGo key 0 d a b =
        (if b - a > 12 then heapSortGo key d a b
         else if b - a > 1 then insertionSortGo key (shellPass key d a b) a b
         else d) := rfl
    rw [hstep]
    split_ifs with h12 h1
    · exact heapSortGo_spec key d a b
    · exact ⟨insertionSortGo_sorts key _ a b,
        Confined.trans (shellPass_confined key d a b)
          (insertionSortGo_confined key _ a b)⟩
    · exact ⟨sortedRange_small key d (by omega), Confined.rfl⟩
  | succ depth ih =>
    intro d a b
    have hstep : quickSortGo key (depth + 1) d a b =
        (if b - a > 12 then
          (if (doPivotGo key d a b).2.1 - a < b - (doPivotGo key d a b).2.2 then
            quickSortGo key depth
              (quickSortGo key depth (doPivotGo key d a b).1 a
                (doPivotGo key d a b).2.1) (doPivotGo key d a b).2.2 b
          else
            quickSortGo key depth
              (quickSortGo key depth (doPivotGo key d a b).1
                (doPivotGo key d a b).2.2 b) a (doPivotGo key d a b).2.1)
         else if b - a > 1 then insertionSortGo key (shellPass key d a b) a b
         else d) := rfl
    rw [hstep]
    by_cases h12 : b - a > 12
    case neg =>
      rw [if_neg h12]
      split_ifs with h1
      · exact ⟨insertionSortGo_sorts key _ a b,
          Confined.trans (shellPass_confined key d a b)
            (insertionSortGo_confined key _ a b)⟩
      · exact ⟨sortedRange_small key d (by omega), Confined.rfl⟩
    case pos =>
      rw [if_pos h12]
      rcases hdp : doPivotGo key d a b with ⟨dP, mlo, mhi⟩
      dsimp only
      obtain ⟨hconf0, hm1, hm2, hm3, hP1, hP2, hP3⟩ :=
        doPivotGo_spec key d a b (by omega) dP mlo mhi hdp
      split_ifs with hside
      · obtain ⟨hs1, hc1⟩ := ih dP a mlo
        obtain ⟨hs2, hc2⟩ := ih (quickSortGo key depth dP a mlo) mhi b
        set d1 := quickSortGo key depth dP a mlo with hd1
        set d2 := quickSortGo key depth d1 mhi b with hd2
        have hd21 : ∀ k, k < mhi → d2 k = d1 k :=
          fun k hk => hc2.outside (Or.inl hk)
        have hd1P : ∀ k, mlo ≤ k → d1 k = dP k :=
          fun k hk => hc1.outside (Or.inr hk)
        have hmid : ∀ k, mlo ≤ k → k < mhi → d2 k = dP k := by
          intro k h1 h2
          rw [hd21 k h2, hd1P k h1]
        have heA : rangeList d2 a mlo = rangeList d1 a mlo :=
          rangeList_congr (fun i _ h2 => hd21 i (by omega))
        have heC : rangeList d1 mhi b = rangeList dP mhi b :=
          rangeList_congr (fun i h1 _ => hd1P i (by omega))
        have hsA : sortedRange key d2 a mlo :=
          sortedRange_congr (fun i _ h2 => (hd21 i (by omega)).symm) hs1
        refine ⟨quickSort_combine hm2 hP1 hP2 hP3 hmid
          (heA ▸ hc1.2) (hc2.2.trans (heC ▸ List.Perm.rfl)) hsA hs2, ?_⟩
        refine Confined.trans hconf0 ?_
        exact Confined.trans (Confined.mono (le_refl a) (by omega) hc1)
          (Confined.mono (by omega) (le_refl b) hc2)
      · obtain ⟨hs1, hc1⟩ := ih dP mhi b
        obtain ⟨hs2, hc2⟩ := ih (quickSortGo key depth dP mhi b) a mlo
        set d1 := quickSortGo key depth dP mhi b with hd1
        set d2 := quickSortGo key depth d1 a mlo with hd2
        have hd21 : ∀ k, mlo ≤ k → d2 k = d1 k :=
          fun k hk => hc2.outside (Or.inr hk)
        have hd1P : ∀ k, k < mhi → d1 k = dP k :=
          fun k hk => hc1.outside (Or.inl hk)
        have hmid : ∀ k, mlo ≤ k → k < mhi → d2 k = dP k := by
          intro k h1 h2
          rw [hd21 k h1, hd1P k h2]
        have heA : rangeList d1 a mlo = rangeList dP a mlo :=
          rangeList_congr (fun i _ h2 => hd1P i (by omega))
        have heC : rangeList d2 mhi b = rangeList d1 mhi b :=
          rangeList_congr (fun i h1 _ => hd21 i (by omega))
        have hsC : sortedRange key d2 mhi b :=
          sortedRange_congr (fun i h1 _ => (hd21 i (by omega)).symm) hs1
        refine ⟨quickSort_combine hm2 hP1 hP2 hP3 hmid
          (hc2.2.trans (heA ▸ List.Perm.rfl)) (heC ▸ hc1.2) hs2 hsC, ?_⟩
        refine Confined.trans hconf0 ?_
        exact Confined.trans (Confined.mono (by omega) (le_refl b) hc1)
          (Confined.mono (le_refl a) (by omega) hc2)


theorem rangeList_zero {α : Type} (d : Nat → α) (n : Nat) :
    rangeList d 0 n = (List.range n).map d := by
  rw [rangeList, Nat.sub_zero, List.range_eq_range']

theorem rangeList_load {α : Type} [Inhabited α] (l : List α) :
    rangeList (fun i => l.getD i default) 0 l.length = l := by
  rw [rangeList_zero]
  apply List.ext_getElem
  · simp
  · intro i h1 h2
    simp [List.getD, List.getElem?_eq_getElem h2]

/- `sort.Sort` on a list sorts it by the key... -/
theorem goSortList_sorted {α : Type} [Inhabited α] (key : α → String)
    (l : List α) :
    List.Pairwise (fun x y => key x ≤ key y) (goSortList key l) := by
  have h := (quickSortGo_spec key (maxDepthGo l.length)
    (fun i => l.getD i default) 0 l.length).1
  rw [List.pairwise_iff_getElem]
  intro i j hi hj hij
  simp only [goSortList, sortGo, List.getElem_map, List.getElem_range,
    List.length_map, List.length_range] at hi hj ⊢
  exact h i j (Nat.zero_le _) (le_of_lt hij) hj

/- ... and permutes it. -/
theorem goSortList_perm {α : Type} [Inhabited α] (key : α → String)
    (l : List α) : (goSortList key l).Perm l := by
  have h := (quickSortGo_spec key (maxDepthGo l.length)
    (fun i => l.getD i default) 0 l.length).2
  have hpm := h.2
  rw [rangeList_load] at hpm
  have he : goSortList key l =
      rangeList (quickSortGo key (maxDepthGo l.length)
        (fun i => l.getD i default) 0 l.length) 0 l.length := by
    rw [rangeList_zero]
    rfl
  rw [he]
  exact hpm

/-  ---------------------------------------------------------------------
    Renderer claims C3 and C4
    --------------------------------------------------------------------- -/

/-- Claim C3 (amended): for every connector list passed to the login
operation, the connectors bound into the template data are the result of
Go's `sort.Sort` under the by-name comparator: a permutation of the input
sorted ascending by display name under case-sensitive ordinal string
comparison.  (`sort.Sort` is not stable, so connectors with equal names do
not in general keep their insertion order; see the counterexample.) -/
theorem login_connectors_sorted (σ : Type) (rw : RespWriter σ)
    (t : templates) (beh : TmplBehavior) (cs : List connectorInfo)
    (arid : String) (s : σ) :
    (t.login rw beh cs arid s).data.Connectors = goSortConnectors cs ∧
    List.Pairwise (fun x y => x.Name ≤ y.Name)
      ((t.login rw beh cs arid s).data.Connectors) ∧
    ((t.login rw beh cs arid s).data.Connectors).Perm cs := by
  have h1 : (t.login rw beh cs arid s).data.Connectors = goSortConnectors cs := by
    rcases hr : renderTemplate rw beh ((t.loginTmpl).getD "") s with ⟨s', log'⟩
    simp [templates.login, hr]
  refine ⟨h1, ?_, ?_⟩
  · rw [h1]
    exact goSortList_sorted connectorInfo.Name cs
  · rw [h1]
    exact goSortList_perm connectorInfo.Name cs

/-- Claim C4: the approval operation maps each requested scope through the
fixed three-entry description table, silently dropping unrecognized scopes,
and binds the resulting descriptions sorted ascending (a sorted permutation
of the mapped list); in particular
`["email", "unknown_scope", "offline_access"]` yields exactly
`["Have offline access", "View your email"]`. -/
theorem approval_scopes_mapped_sorted (σ : Type) (rw : RespWriter σ)
    (t : templates) (beh : TmplBehavior) (arid un cn : String)
    (scopes : List String) (s : σ) :
    (t.approval rw beh arid un cn scopes s).data.Scopes =
      goSortStrings (scopes.filterMap scopeDescriptions) ∧
    List.Pairwise (fun x y => x ≤ y)
      ((t.approval rw beh arid un cn scopes s).data.Scopes) ∧
    ((t.approval rw beh arid un cn scopes s).data.Scopes).Perm
      (scopes.filterMap scopeDescriptions) ∧
    scopeDescriptions "offline_access" = some "Have offline access" ∧
    scopeDescriptions "profile" = some "View basic profile information" ∧
    scopeDescriptions "email" = some "View your email" ∧
    (∀ sc, sc ∉ (["offline_access", "profile", "email"] : List String) →
      scopeDescriptions sc = none) ∧
    goSortStrings
        ((["email", "unknown_scope", "offline_access"] : List String).filterMap
          scopeDescriptions) =
      ["Have offline access", "View your email"] := by
  have h1 : (t.approval rw beh arid un cn scopes s).data.Scopes =
      goSortStrings (scopes.filterMap scopeDescriptions) := by
    rcases hr : renderTemplate rw beh ((t.approvalTmpl).getD "") s with ⟨s', log'⟩
    simp [templates.approval, hr]
  refine ⟨h1, ?_, ?_, rfl, rfl, rfl, ?_, by decide⟩
  · rw [h1]
    exact goSortList_sorted id (scopes.filterMap scopeDescriptions)
  · rw [h1]
    exact goSortList_perm id (scopes.filterMap scopeDescriptions)
  · intro sc hsc
    unfold scopeDescriptions
    split
    · simp at hsc
    · simp at hsc
    · simp at hsc
    · rfl
